import Mathlib

/-!
Shallow embedding of the arklib resource index (src/src/index.rs) and proofs
about its build/update algorithms.  HashMaps are modelled as association
lists whose lookup returns the first binding; HashSets as lists.  The
filesystem, path canonicalization and the external metadata scanner are
modelled as data attached to an abstract directory tree.
-/

namespace Arklib

/-- Canonical filesystem paths (CanonicalPathBuf) are opaque atoms. -/
abbrev CanonicalPathBuf := Nat

/-- Content identities (crate::id::ResourceId) are opaque atoms. -/
abbrev ResourceId := Nat

/-- Modelled from the spec: crate::meta::ResourceMeta (not under src/) is an
immutable snapshot containing a content identity and a modification
timestamp comparable with the order on timestamps. -/
structure ResourceMeta where
  id : ResourceId
  modified : Nat
deriving DecidableEq, Repr

/-- Association-list model of std HashMap; lookup returns the first binding. -/
abbrev Map (κ ν : Type) := List (κ × ν)

namespace Map

variable {κ ν : Type}

def find? [DecidableEq κ] : Map κ ν → κ → Option ν
  | [], _ => none
  | p :: m, k => if p.1 = k then some p.2 else find? m k

def keys (m : Map κ ν) : List κ := m.map Prod.fst

/-- HashMap::insert — binds k to v, dropping any previous binding of k. -/
def ins [DecidableEq κ] (m : Map κ ν) (k : κ) (v : ν) : Map κ ν :=
  (k, v) :: m.filter (fun p => decide (p.1 ≠ k))

/-- HashMap::remove — drops the binding of k, if any. -/
def erase [DecidableEq κ] (m : Map κ ν) (k : κ) : Map κ ν :=
  m.filter (fun p => decide (p.1 ≠ k))

/-- Building a HashMap from a sequence of pairs (collect): left fold of inserts. -/
def collectKV [DecidableEq κ] (l : List (κ × ν)) : Map κ ν :=
  l.foldl (fun acc p => acc.ins p.1 p.2) []

theorem mem_keys_of_mem {m : Map κ ν} {p : κ × ν} (h : p ∈ m) :
    p.1 ∈ keys m := List.mem_map_of_mem Prod.fst h

theorem keys_cons {m : Map κ ν} {p : κ × ν} : keys (p :: m) = p.1 :: keys m := rfl

theorem find?_eq_none [DecidableEq κ] {m : Map κ ν} {k : κ} :
    find? m k = none ↔ k ∉ keys m := by
  induction m with
  | nil => simp [find?, keys]
  | cons p m ih =>
    by_cases h : p.1 = k
    · subst h
      simp [find?, keys]
    · have h' : ¬ k = p.1 := fun hh => h hh.symm
      simp only [find?, h, if_false, ih, keys, List.map_cons, List.mem_cons]
      tauto

theorem find?_isSome [DecidableEq κ] {m : Map κ ν} {k : κ} :
    (find? m k).isSome ↔ k ∈ keys m := by
  rw [Option.isSome_iff_ne_none, not_iff_comm, ← find?_eq_none]

theorem find?_some_mem [DecidableEq κ] {m : Map κ ν} {k : κ} {v : ν}
    (h : find? m k = some v) : (k, v) ∈ m := by
  induction m with
  | nil => simp [find?] at h
  | cons p m ih =>
    by_cases hp : p.1 = k
    · simp only [find?, hp, if_pos] at h
      have hv : v = p.2 := (Option.some.inj h).symm
      have : (k, v) = p := by
        rw [← hp, hv]
      rw [this]
      exact List.mem_cons_self _ _
    · simp only [find?, hp, if_false] at h
      exact List.mem_cons_of_mem _ (ih h)

theorem find?_none_not_key [DecidableEq κ] {m : Map κ ν} {k : κ}
    (h : find? m k = none) : ∀ p ∈ m, p.1 ≠ k := by
  intro p hp hk
  exact (find?_eq_none.1 h) (hk ▸ mem_keys_of_mem hp)

theorem mem_erase [DecidableEq κ] {m : Map κ ν} {k : κ} {p : κ × ν} :
    p ∈ erase m k ↔ p ∈ m ∧ p.1 ≠ k := by
  simp [erase, List.mem_filter]

theorem mem_ins [DecidableEq κ] {m : Map κ ν} {k : κ} {v : ν} {p : κ × ν} :
    p ∈ ins m k v ↔ p = (k, v) ∨ (p ∈ m ∧ p.1 ≠ k) := by
  simp [ins, List.mem_filter]

theorem find?_ins_self [DecidableEq κ] {m : Map κ ν} {k : κ} {v : ν} :
    find? (ins m k v) k = some v := by
  simp [ins, find?]

theorem find?_filter_ne [DecidableEq κ] {m : Map κ ν} {k k' : κ} (h : k' ≠ k) :
    find? (m.filter (fun p => decide (p.1 ≠ k))) k' = find? m k' := by
  induction m with
  | nil => rfl
  | cons p m ih =>
    rw [List.filter_cons]
    by_cases hp : p.1 = k
    · have hpk : ¬ p.1 = k' := fun hh => h (by rw [← hh]; exact hp)
      have hd : decide (p.1 ≠ k) = false := by simp [hp]
      rw [hd]
      simp only [Bool.false_eq_true, if_false]
      rw [ih]
      simp [find?, hpk]
    · have hd : decide (p.1 ≠ k) = true := by simp [hp]
      rw [hd]
      simp only [if_true]
      by_cases hpk : p.1 = k'
      · simp [find?, hpk]
      · simp only [find?, hpk, if_false]
        exact ih

theorem find?_erase_ne [DecidableEq κ] {m : Map κ ν} {k k' : κ} (h : k' ≠ k) :
    find? (erase m k) k' = find? m k' := find?_filter_ne h

theorem find?_ins_ne [DecidableEq κ] {m : Map κ ν} {k k' : κ} {v : ν} (h : k' ≠ k) :
    find? (ins m k v) k' = find? m k' := by
  have hk : ¬ (k, v).1 = k' := fun hh => h (by rw [← hh])
  simp only [ins, find?, hk, if_false]
  exact find?_filter_ne h

theorem find?_erase_self [DecidableEq κ] {m : Map κ ν} {k : κ} :
    find? (erase m k) k = none := by
  rw [find?_eq_none]
  intro hk
  rcases List.mem_map.1 hk with ⟨p, hp, hpk⟩
  exact (mem_erase.1 hp).2 hpk

theorem keys_erase_sublist [DecidableEq κ] (m : Map κ ν) (k : κ) :
    List.Sublist (keys (erase m k)) (keys m) :=
  (List.filter_sublist m).map Prod.fst

theorem nodup_keys_erase [DecidableEq κ] {m : Map κ ν} (h : (keys m).Nodup) (k : κ) :
    (keys (erase m k)).Nodup := (keys_erase_sublist m k).nodup h

theorem not_mem_keys_erase_self [DecidableEq κ] {m : Map κ ν} {k : κ} :
    k ∉ keys (erase m k) := by
  intro hk
  rcases List.mem_map.1 hk with ⟨p, hp, hpk⟩
  exact (mem_erase.1 hp).2 hpk

theorem mem_keys_erase [DecidableEq κ] {m : Map κ ν} {k k' : κ} (h : k' ≠ k)
    (hm : k' ∈ keys m) : k' ∈ keys (erase m k) := by
  rw [← find?_isSome] at hm ⊢
  rw [find?_erase_ne h]
  exact hm

theorem nodup_keys_ins [DecidableEq κ] {m : Map κ ν} (h : (keys m).Nodup) (k : κ) (v : ν) :
    (keys (ins m k v)).Nodup := by
  simp only [ins, keys, List.map_cons, List.nodup_cons]
  exact ⟨not_mem_keys_erase_self (m := m) (k := k), nodup_keys_erase h k⟩

theorem mem_keys_ins [DecidableEq κ] {m : Map κ ν} {k k' : κ} {v : ν} :
    k' ∈ keys (ins m k v) ↔ k' = k ∨ k' ∈ keys m := by
  constructor
  · intro hm
    rcases List.mem_map.1 hm with ⟨p, hp, hpk⟩
    rcases mem_ins.1 hp with h1 | h1
    · left; rw [← hpk, h1]
    · right; exact hpk ▸ mem_keys_of_mem h1.1
  · intro hm
    rcases hm with hm | hm
    · subst hm
      exact find?_isSome.1 (by rw [find?_ins_self]; rfl)
    · by_cases hk : k' = k
      · subst hk
        exact find?_isSome.1 (by rw [find?_ins_self]; rfl)
      · exact find?_isSome.1 (by rw [find?_ins_ne hk, find?_isSome]; exact hm)

theorem erase_of_not_mem_keys [DecidableEq κ] {m : Map κ ν} {k : κ}
    (h : k ∉ keys m) : erase m k = m := by
  unfold erase
  apply List.filter_eq_self.2
  intro p hp
  have : p.1 ≠ k := fun hk => h (hk ▸ mem_keys_of_mem hp)
  simpa using this

theorem ins_of_not_mem_keys [DecidableEq κ] {m : Map κ ν} {k : κ} {v : ν}
    (h : k ∉ keys m) : ins m k v = (k, v) :: m := by
  show (k, v) :: erase m k = (k, v) :: m
  rw [erase_of_not_mem_keys h]

theorem find?_eq_some_of_nodup [DecidableEq κ] {m : Map κ ν} {k : κ} {v : ν}
    (hnd : (keys m).Nodup) (h : (k, v) ∈ m) : find? m k = some v := by
  induction m with
  | nil => simp at h
  | cons p m ih =>
    simp only [keys, List.map_cons, List.nodup_cons] at hnd
    rcases List.mem_cons.1 h with h | h
    · rw [← h]
      simp [find?]
    · have hpk : ¬ p.1 = k := by
        intro hk
        apply hnd.1
        rw [hk]
        exact mem_keys_of_mem h
      simp only [find?, hpk, if_false]
      exact ih hnd.2 h

theorem value_unique_of_nodup [DecidableEq κ] {m : Map κ ν} {k : κ} {v w : ν}
    (hnd : (keys m).Nodup) (hv : (k, v) ∈ m) (hw : (k, w) ∈ m) : v = w := by
  have h1 := find?_eq_some_of_nodup hnd hv
  have h2 := find?_eq_some_of_nodup hnd hw
  rw [h1] at h2
  exact Option.some.inj h2

theorem find?_append [DecidableEq κ] {a b : Map κ ν} {k : κ} :
    find? (a ++ b) k = (find? a k).orElse (fun _ => find? b k) := by
  induction a with
  | nil => rfl
  | cons p a ih =>
    by_cases hp : p.1 = k <;> simp [find?, hp, ih]

theorem nodup_keys_foldl_ins [DecidableEq κ] (l : List (κ × ν)) (acc : Map κ ν)
    (hacc : (keys acc).Nodup) :
    (keys (l.foldl (fun a p => ins a p.1 p.2) acc)).Nodup := by
  induction l generalizing acc with
  | nil => exact hacc
  | cons p l ih => exact ih _ (nodup_keys_ins hacc p.1 p.2)

theorem nodup_keys_collectKV [DecidableEq κ] (l : List (κ × ν)) :
    (keys (collectKV l)).Nodup := nodup_keys_foldl_ins l [] (by simp [keys])

theorem mem_foldl_ins [DecidableEq κ] {l : List (κ × ν)} {acc : Map κ ν} {p : κ × ν}
    (h : p ∈ l.foldl (fun a q => ins a q.1 q.2) acc) : p ∈ acc ∨ p ∈ l := by
  induction l generalizing acc with
  | nil => exact Or.inl h
  | cons q l ih =>
    rcases ih h with h1 | h1
    · rcases mem_ins.1 h1 with h2 | h2
      · right; rw [h2]; exact List.mem_cons_self _ _
      · left; exact h2.1
    · right; exact List.mem_cons_of_mem _ h1

theorem mem_collectKV [DecidableEq κ] {l : List (κ × ν)} {p : κ × ν}
    (h : p ∈ collectKV l) : p ∈ l := by
  rcases mem_foldl_ins h with h1 | h1
  · simp at h1
  · exact h1

theorem mem_keys_foldl_ins [DecidableEq κ] {l : List (κ × ν)} {acc : Map κ ν} {k : κ} :
    k ∈ keys (l.foldl (fun a q => ins a q.1 q.2) acc) ↔ k ∈ keys acc ∨ k ∈ keys l := by
  induction l generalizing acc with
  | nil => simp [keys]
  | cons q l ih =>
    rw [List.foldl_cons, ih]
    simp only [mem_keys_ins, keys_cons, List.mem_cons]
    tauto

theorem mem_keys_collectKV [DecidableEq κ] {l : List (κ × ν)} {k : κ} :
    k ∈ keys (collectKV l) ↔ k ∈ keys l := by
  rw [collectKV, mem_keys_foldl_ins]
  simp [keys]

theorem find?_foldl_ins [DecidableEq κ] (l : List (κ × ν)) (acc : Map κ ν) (k : κ) :
    find? (l.foldl (fun a p => ins a p.1 p.2) acc) k =
      (find? l.reverse k).orElse (fun _ => find? acc k) := by
  induction l generalizing acc with
  | nil => rfl
  | cons p l ih =>
    rw [List.foldl_cons, ih, List.reverse_cons, find?_append]
    cases hfl : find? l.reverse k with
    | some v => simp [Option.orElse]
    | none =>
      simp only [Option.orElse]
      by_cases hp : p.1 = k
      · subst hp
        rw [find?_ins_self]
        simp [find?, Option.orElse]
      · have hk : k ≠ p.1 := fun hh => hp hh.symm
        rw [find?_ins_ne hk]
        simp [find?, hp, Option.orElse]

theorem find?_reverse_of_nodup [DecidableEq κ] {l : Map κ ν} (hnd : (keys l).Nodup)
    (k : κ) : find? l.reverse k = find? l k := by
  cases hf : find? l k with
  | none =>
    rw [find?_eq_none] at hf ⊢
    intro hk
    exact hf (by simpa [keys] using hk)
  | some v =>
    have hm : (k, v) ∈ l.reverse := List.mem_reverse.2 (find?_some_mem hf)
    exact find?_eq_some_of_nodup (by simpa [keys] using hnd) hm

theorem find?_collectKV_of_nodup [DecidableEq κ] {l : List (κ × ν)}
    (hnd : (keys l).Nodup) (k : κ) : find? (collectKV l) k = find? l k := by
  rw [collectKV, find?_foldl_ins, find?_reverse_of_nodup hnd]
  cases hf : find? l k <;> simp [find?, Option.orElse]

theorem mem_collectKV_of_nodup [DecidableEq κ] {l : List (κ × ν)} {p : κ × ν}
    (hnd : (keys l).Nodup) (h : p ∈ l) : p ∈ collectKV l := by
  have : find? (collectKV l) p.1 = some p.2 := by
    rw [find?_collectKV_of_nodup hnd]
    exact find?_eq_some_of_nodup hnd h
  exact find?_some_mem this

end Map

/-! ## Filesystem model

The claims concern what `build`/`update` do given the observations the code
makes of the filesystem: the recursive walk (walkdir), per-entry
canonicalization, the external metadata scan, and the fresh
modified-timestamp read.  We model a filesystem as a tree of named nodes;
each file carries the outcomes of those three fallible external calls.
A `none` canonicalization models `CanonicalPathBuf::canonicalize` failing,
a `none` scan models `ResourceMeta::scan` failing, and a `none` fresh
timestamp models `entry.metadata()`/`metadata.modified()` failing.  An
unreadable directory (`readErr`) makes walkdir yield an error instead of
the children; a `none` root models a root path that does not exist (the
walk yields a single error entry). -/

/-- A directory-entry name: the raw bytes plus the result of
OsStr::to_str (`none` when the name is not valid UTF-8); a successful
to_str is the list of the string's characters. -/
structure EntryName where
  raw : List Nat
  str? : Option (List Char)
deriving DecidableEq, Repr

/-- External observations attached to a file node. -/
structure FileAttrs where
  canon? : Option CanonicalPathBuf
  scan? : Option ResourceMeta
  fresh? : Option Nat
deriving DecidableEq, Repr

/-- The data of a walkdir DirEntry that the indexer consumes later:
the scan outcome and the fresh modified-timestamp outcome. -/
structure DirEntry where
  scan? : Option ResourceMeta
  fresh? : Option Nat
deriving DecidableEq, Repr

inductive FSNode : Type where
  | file (name : EntryName) (attrs : FileAttrs)
  | dir (name : EntryName) (readErr : Bool) (children : List FSNode)

/-- fn is_hidden (src/src/index.rs:262-268): a string starts with "."
exactly when its first character is the dot. -/
def is_hidden (name : EntryName) : Bool :=
  (name.str?.map (fun s =>
    match s with
    | c :: _ => decide (c = '.')
    | [] => false)).getD false

mutual

/-- Entries produced under one node by the walk of fn discover_paths
(src/src/index.rs:177-213): filter_entry prunes hidden entries (and with
them their subtrees), directories and canonicalization failures are
dropped, traversal errors (unreadable directories) drop the branch. -/
def discoverNode : FSNode → List (CanonicalPathBuf × DirEntry)
  | .file name attrs =>
    if is_hidden name then []
    else
      match attrs.canon? with
      | some p => [(p, ⟨attrs.scan?, attrs.fresh?⟩)]
      | none => []
  | .dir name readErr children =>
    if is_hidden name then []
    else if readErr then []
    else discoverList children

def discoverList : List FSNode → List (CanonicalPathBuf × DirEntry)
  | [] => []
  | c :: cs => discoverNode c ++ discoverList cs

end

/-- fn discover_paths: the discovered entries collected into a HashMap.
A `none` root is a root path that does not exist: the walk yields one
error entry, which the filter_map drops. -/
def discover_paths (root_path : Option FSNode) : Map CanonicalPathBuf DirEntry :=
  Map.collectKV (match root_path with | none => [] | some t => discoverNode t)

/-- fn scan_metadata (src/src/index.rs:215-239): scan every entry, drop
failures, collect into a HashMap. -/
def scan_metadata (entries : Map CanonicalPathBuf DirEntry) :
    Map CanonicalPathBuf ResourceMeta :=
  Map.collectKV (entries.filterMap (fun pe => pe.2.scan?.map (fun m => (pe.1, m))))

/-! ## The index -/

/-- The three co-maintained structures of ResourceIndex. -/
structure Tables where
  path2meta : Map CanonicalPathBuf ResourceMeta
  collisions : Map ResourceId Nat
  ids : List ResourceId
deriving DecidableEq, Repr

structure ResourceIndex extends Tables where
  root : Option FSNode

structure IndexUpdate where
  deleted : List ResourceId
  added : Map CanonicalPathBuf ResourceMeta
deriving DecidableEq, Repr

def ResourceIndex.size (idx : ResourceIndex) : Nat := idx.path2meta.length

/-- fn add_meta (src/src/index.rs:241-260). -/
def add_meta (path : CanonicalPathBuf) (meta : ResourceMeta) (t : Tables) : Tables :=
  let id := meta.id
  let path2meta := Map.ins t.path2meta path meta
  if id ∈ t.ids then
    match Map.find? t.collisions id with
    | some nonempty =>
      { path2meta := path2meta, collisions := Map.ins t.collisions id (nonempty + 1),
        ids := t.ids }
    | none =>
      { path2meta := path2meta, collisions := Map.ins t.collisions id 2, ids := t.ids }
  else
    { path2meta := path2meta, collisions := t.collisions, ids := id :: t.ids }

def insertAll (t : Tables) (l : Map CanonicalPathBuf ResourceMeta) : Tables :=
  l.foldl (fun t pm => add_meta pm.1 pm.2 t) t

/-- ResourceIndex::build (src/src/index.rs:33-58), minus the Ok wrapper. -/
def buildIdx (root_path : Option FSNode) : ResourceIndex :=
  let paths := discover_paths root_path
  let metadata := scan_metadata paths
  { toTables := insertAll ⟨[], [], []⟩ metadata, root := root_path }

/-- ResourceIndex::build.  The body has a single return, Ok(index). -/
def build (root_path : Option FSNode) : Except String ResourceIndex :=
  Except.ok (buildIdx root_path)

/-! ## ResourceIndex::update (src/src/index.rs:60-174), split into the
successive values its body computes. -/

/-- Rust `self.path2meta[path]` panics when the key is absent; the model
returns a default there, and claim C9 proves that for the paths on which
update performs this read the key is always present. -/
def indexGet (m : Map CanonicalPathBuf ResourceMeta) (p : CanonicalPathBuf) :
    ResourceMeta :=
  (Map.find? m p).getD ⟨0, 0⟩

def currEntries (idx : ResourceIndex) : Map CanonicalPathBuf DirEntry :=
  discover_paths idx.root

def currPaths (idx : ResourceIndex) : List CanonicalPathBuf :=
  Map.keys (currEntries idx)

def prevPaths (idx : ResourceIndex) : List CanonicalPathBuf :=
  Map.keys idx.path2meta

def preservedPaths (idx : ResourceIndex) : List CanonicalPathBuf :=
  (currPaths idx).filter (fun p => decide (p ∈ prevPaths idx))

def createdPaths (idx : ResourceIndex) : Map CanonicalPathBuf DirEntry :=
  (currEntries idx).filter (fun pe => decide (pe.1 ∉ preservedPaths idx))

/-- The predicate of the updated_paths filter (src/src/index.rs:89-118):
false for non-preserved paths; for preserved paths, reads the stored
modified timestamp, then compares with the freshly read one; both
metadata-read failure branches yield false (logged in the source). -/
def updatedCheck (idx : ResourceIndex) (pe : CanonicalPathBuf × DirEntry) : Bool :=
  if pe.1 ∈ preservedPaths idx then
    let prev_modified := (indexGet idx.path2meta pe.1).modified
    match pe.2.fresh? with
    | none => false
    | some curr_modified => decide (prev_modified < curr_modified)
  else false

def updatedPaths (idx : ResourceIndex) : Map CanonicalPathBuf DirEntry :=
  (currEntries idx).filter (updatedCheck idx)

def vanishedPaths (idx : ResourceIndex) : List CanonicalPathBuf :=
  (prevPaths idx).filter (fun p => decide (p ∉ preservedPaths idx))

/-- prev_paths.difference(preserved).chain(updated_paths.keys). -/
def retractionList (idx : ResourceIndex) : List CanonicalPathBuf :=
  vanishedPaths idx ++ Map.keys (updatedPaths idx)

/-- State threaded through the retraction loop (src/src/index.rs:121-141):
the index tables, the `deleted` result set, and whether the
"Path was not known" warning was ever logged. -/
structure UpdSt where
  path2meta : Map CanonicalPathBuf ResourceMeta
  collisions : Map ResourceId Nat
  ids : List ResourceId
  deleted : List ResourceId
  warned : Bool
deriving Repr

/-- HashSet::insert on the `deleted` set. -/
def insertSet (l : List ResourceId) (i : ResourceId) : List ResourceId :=
  if i ∈ l then l else i :: l

/-- One iteration of the retraction loop (src/src/index.rs:128-141). -/
def retractStep (st : UpdSt) (path : CanonicalPathBuf) : UpdSt :=
  match Map.find? st.path2meta path with
  | some meta =>
    let k := (Map.find? st.collisions meta.id).getD 1
    let collisions := Map.erase st.collisions meta.id
    let path2meta := Map.erase st.path2meta path
    if 1 < k then
      { st with
          path2meta := path2meta,
          collisions := Map.ins collisions meta.id (k - 1) }
    else
      { st with
          path2meta := path2meta,
          collisions := collisions,
          ids := st.ids.erase meta.id,
          deleted := insertSet st.deleted meta.id }
  | none => { st with warned := true }

def retractSt (idx : ResourceIndex) : UpdSt :=
  (retractionList idx).foldl retractStep
    ⟨idx.path2meta, idx.collisions, idx.ids, [], false⟩

/-- scan_metadata(updated_paths).chain(scan_metadata(created_paths)). -/
def candidateList (idx : ResourceIndex) : List (CanonicalPathBuf × ResourceMeta) :=
  scan_metadata (updatedPaths idx) ++ scan_metadata (createdPaths idx)

/-- The candidates surviving the `!self.ids.contains(&meta.id)` filter,
where ids is the set after retraction (src/src/index.rs:143-151). -/
def addedList (idx : ResourceIndex) : List (CanonicalPathBuf × ResourceMeta) :=
  (candidateList idx).filter (fun pm => decide (pm.2.id ∉ (retractSt idx).ids))

def addedMap (idx : ResourceIndex) : Map CanonicalPathBuf ResourceMeta :=
  Map.collectKV (addedList idx)

/-- ResourceIndex::update, minus the Ok wrapper: retraction, then
insertion of every surviving candidate via add_meta. -/
def updateCore (idx : ResourceIndex) : IndexUpdate × ResourceIndex :=
  (⟨(retractSt idx).deleted, addedMap idx⟩,
   { toTables :=
       insertAll
         ⟨(retractSt idx).path2meta, (retractSt idx).collisions, (retractSt idx).ids⟩
         (addedMap idx)
     root := idx.root })

/-- ResourceIndex::update.  The body has a single return, Ok(IndexUpdate). -/
def update (idx : ResourceIndex) : Except String (IndexUpdate × ResourceIndex) :=
  Except.ok (updateCore idx)

/-! ## The collision-count invariant -/

/-- Number of tracked paths whose metadata identity is i. -/
def countId (m : Map CanonicalPathBuf ResourceMeta) (i : ResourceId) : Nat :=
  m.countP (fun pm => decide (pm.2.id = i))

/-- Well-formedness of the three index structures: keys are unique, ids is
exactly the set of identities with at least one tracked path, every
collisions binding records the exact path count of its identity, counts
are positive, and every identity held by two or more paths has a
collisions binding. -/
def WfT (t : Tables) : Prop :=
  (Map.keys t.path2meta).Nodup ∧
  t.ids.Nodup ∧
  (Map.keys t.collisions).Nodup ∧
  (∀ pm ∈ t.path2meta, pm.2.id ∈ t.ids) ∧
  (∀ i ∈ t.ids, 1 ≤ countId t.path2meta i) ∧
  (∀ pr ∈ t.collisions, countId t.path2meta pr.1 = pr.2) ∧
  (∀ pr ∈ t.collisions, 1 ≤ pr.2) ∧
  (∀ pm ∈ t.path2meta, 2 ≤ countId t.path2meta pm.2.id →
    (Map.find? t.collisions pm.2.id).isSome)

instance (t : Tables) : Decidable (WfT t) := by
  unfold WfT
  infer_instance

/-! ### concrete fixtures used by witnesses and counterexamples -/

/-- A filesystem holding the single non-hidden file "a", canonical path 1,
whose content has identity 5 and modification time 1. -/
def oneFileTree : FSNode :=
  FSNode.file ⟨[97], some ['a']⟩ ⟨some 1, some ⟨5, 1⟩, some 1⟩

/-- An index tracking two paths (0 and 1) that share identity 5, while the
filesystem now holds only path 1: path 0 has vanished. -/
def dupIndex : ResourceIndex :=
  { path2meta := [(0, ⟨5, 1⟩), (1, ⟨5, 1⟩)], collisions := [(5, 2)], ids := [5],
    root := some oneFileTree }

/-! ### countId lemmas -/

theorem countId_cons {pm : CanonicalPathBuf × ResourceMeta}
    {m : Map CanonicalPathBuf ResourceMeta} {i : ResourceId} :
    countId (pm :: m) i = countId m i + (if pm.2.id = i then 1 else 0) := by
  simp [countId, List.countP_cons]

theorem countId_pos {m : Map CanonicalPathBuf ResourceMeta} {i : ResourceId} :
    0 < countId m i ↔ ∃ pm ∈ m, pm.2.id = i := by
  simp [countId, List.countP_pos_iff]

theorem countId_pos_of_mem {m : Map CanonicalPathBuf ResourceMeta}
    {pm : CanonicalPathBuf × ResourceMeta} (h : pm ∈ m) : 0 < countId m pm.2.id :=
  countId_pos.2 ⟨pm, h, rfl⟩

theorem perm_cons_erase_of_find? {κ ν : Type} [DecidableEq κ] {m : Map κ ν} {k : κ} {v : ν}
    (hnd : (Map.keys m).Nodup) (h : Map.find? m k = some v) :
    m.Perm ((k, v) :: Map.erase m k) := by
  induction m with
  | nil => simp [Map.find?] at h
  | cons p m ih =>
    simp only [Map.keys, List.map_cons, List.nodup_cons] at hnd
    by_cases hp : p.1 = k
    · simp only [Map.find?, hp, if_pos] at h
      have hpv : p = (k, v) := by
        rw [← hp, ← Option.some.inj h]
      have he : Map.erase (p :: m) k = m := by
        show List.filter _ (p :: m) = m
        rw [List.filter_cons]
        have : decide (p.1 ≠ k) = false := by simp [hp]
        rw [this]
        simp only [Bool.false_eq_true, if_false]
        apply List.filter_eq_self.2
        intro q hq
        have : q.1 ≠ k := by
          intro hqk
          apply hnd.1
          rw [hp, ← hqk]
          exact Map.mem_keys_of_mem hq
        simpa using this
      rw [he, hpv]
    · simp only [Map.find?, hp, if_false] at h
      have he : Map.erase (p :: m) k = p :: Map.erase m k := by
        show List.filter _ (p :: m) = p :: List.filter _ m
        rw [List.filter_cons]
        have : decide (p.1 ≠ k) = true := by simp [hp]
        rw [this]
        simp
      rw [he]
      exact (List.Perm.cons p (ih hnd.2 h)).trans (List.Perm.swap (k, v) p _)

theorem countId_erase_of_find? {m : Map CanonicalPathBuf ResourceMeta}
    {k : CanonicalPathBuf} {v : ResourceMeta} {i : ResourceId}
    (hnd : (Map.keys m).Nodup) (h : Map.find? m k = some v) :
    countId m i = countId (Map.erase m k) i + (if v.id = i then 1 else 0) := by
  have hp := perm_cons_erase_of_find? hnd h
  have hc := hp.countP_eq (fun pm => decide (pm.2.id = i))
  show m.countP _ = _
  rw [hc]
  simp [countId, List.countP_cons, Nat.add_comm]

theorem countId_ins_fresh {m : Map CanonicalPathBuf ResourceMeta}
    {k : CanonicalPathBuf} {v : ResourceMeta} {i : ResourceId}
    (h : k ∉ Map.keys m) :
    countId (Map.ins m k v) i = countId m i + (if v.id = i then 1 else 0) := by
  rw [Map.ins_of_not_mem_keys h, countId_cons]

/-! ### WfT accessors and consequences -/

theorem wf_nodup_p2m {t : Tables} (h : WfT t) : (Map.keys t.path2meta).Nodup := h.1

theorem wf_nodup_ids {t : Tables} (h : WfT t) : t.ids.Nodup := h.2.1

theorem wf_nodup_coll {t : Tables} (h : WfT t) : (Map.keys t.collisions).Nodup := h.2.2.1

theorem wf_mem_ids {t : Tables} (h : WfT t) :
    ∀ pm ∈ t.path2meta, pm.2.id ∈ t.ids := h.2.2.2.1

theorem wf_ids_count {t : Tables} (h : WfT t) :
    ∀ i ∈ t.ids, 1 ≤ countId t.path2meta i := h.2.2.2.2.1

theorem wf_coll_count {t : Tables} (h : WfT t) :
    ∀ pr ∈ t.collisions, countId t.path2meta pr.1 = pr.2 := h.2.2.2.2.2.1

theorem wf_coll_pos {t : Tables} (h : WfT t) :
    ∀ pr ∈ t.collisions, 1 ≤ pr.2 := h.2.2.2.2.2.2.1

theorem wf_coll_multi {t : Tables} (h : WfT t) :
    ∀ pm ∈ t.path2meta, 2 ≤ countId t.path2meta pm.2.id →
      (Map.find? t.collisions pm.2.id).isSome := h.2.2.2.2.2.2.2

theorem wf_count_pos_mem_ids {t : Tables} (h : WfT t) {i : ResourceId}
    (hc : 0 < countId t.path2meta i) : i ∈ t.ids := by
  rcases countId_pos.1 hc with ⟨pm, hpm, hid⟩
  exact hid ▸ wf_mem_ids h pm hpm

theorem wf_find?_coll_count {t : Tables} (h : WfT t) {i : ResourceId} {n : Nat}
    (hf : Map.find? t.collisions i = some n) : countId t.path2meta i = n :=
  wf_coll_count h _ (Map.find?_some_mem hf)

theorem wf_find?_coll_pos {t : Tables} (h : WfT t) {i : ResourceId} {n : Nat}
    (hf : Map.find? t.collisions i = some n) : 1 ≤ n :=
  wf_coll_pos h _ (Map.find?_some_mem hf)

theorem wf_coll_of_two {t : Tables} (h : WfT t) {i : ResourceId}
    (hc : 2 ≤ countId t.path2meta i) : (Map.find? t.collisions i).isSome := by
  rcases countId_pos.1 (Nat.lt_of_lt_of_le Nat.zero_lt_two hc) with ⟨pm, hpm, hid⟩
  exact hid ▸ wf_coll_multi h pm hpm (hid ▸ hc)

theorem wf_coll_none_count_le_one {t : Tables} (h : WfT t) {i : ResourceId}
    (hf : Map.find? t.collisions i = none) : countId t.path2meta i ≤ 1 := by
  by_contra hc
  have := wf_coll_of_two h (Nat.succ_le_of_lt (Nat.lt_of_not_le hc))
  rw [hf] at this
  exact Bool.noConfusion this

theorem wf_not_mem_ids_count_zero {t : Tables} (h : WfT t) {i : ResourceId}
    (hi : i ∉ t.ids) : countId t.path2meta i = 0 := by
  by_contra hc
  exact hi (wf_count_pos_mem_ids h (Nat.pos_of_ne_zero hc))

theorem wf_not_mem_ids_coll_none {t : Tables} (h : WfT t) {i : ResourceId}
    (hi : i ∉ t.ids) : Map.find? t.collisions i = none := by
  cases hf : Map.find? t.collisions i with
  | none => rfl
  | some n =>
    exfalso
    have h1 := wf_find?_coll_count h hf
    have h2 := wf_find?_coll_pos h hf
    exact hi (wf_count_pos_mem_ids h (by omega))

/-- The collision invariant as the spec states it: for every known identity,
the number of tracked paths holding it is collisions.get(i).unwrap_or(1). -/
theorem wf_collision_multiset {t : Tables} (h : WfT t) :
    ∀ i ∈ t.ids, countId t.path2meta i = (Map.find? t.collisions i).getD 1 := by
  intro i hi
  cases hf : Map.find? t.collisions i with
  | none =>
    have h1 := wf_ids_count h i hi
    have h2 := wf_coll_none_count_le_one h hf
    simp only [Option.getD]
    omega
  | some n => simpa using wf_find?_coll_count h hf

/-! ### add_meta preserves the invariant -/

theorem add_meta_p2m (p : CanonicalPathBuf) (m : ResourceMeta) (t : Tables) :
    (add_meta p m t).path2meta = Map.ins t.path2meta p m := by
  simp only [add_meta]
  by_cases hid : m.id ∈ t.ids
  · simp only [hid, if_true]
    cases Map.find? t.collisions m.id <;> rfl
  · simp only [hid, if_false]

theorem mem_keys_add_meta {p : CanonicalPathBuf} {m : ResourceMeta} {t : Tables}
    {k : CanonicalPathBuf} :
    k ∈ Map.keys (add_meta p m t).path2meta ↔ k = p ∨ k ∈ Map.keys t.path2meta := by
  rw [add_meta_p2m]
  exact Map.mem_keys_ins

theorem find?_add_meta_self {p : CanonicalPathBuf} {m : ResourceMeta} {t : Tables} :
    Map.find? (add_meta p m t).path2meta p = some m := by
  rw [add_meta_p2m]
  exact Map.find?_ins_self

theorem find?_add_meta_ne {p : CanonicalPathBuf} {m : ResourceMeta} {t : Tables}
    {q : CanonicalPathBuf} (h : q ≠ p) :
    Map.find? (add_meta p m t).path2meta q = Map.find? t.path2meta q := by
  rw [add_meta_p2m]
  exact Map.find?_ins_ne h

theorem mem_ids_add_meta {p : CanonicalPathBuf} {m : ResourceMeta} {t : Tables}
    {i : ResourceId} :
    i ∈ (add_meta p m t).ids ↔ i = m.id ∨ i ∈ t.ids := by
  simp only [add_meta]
  by_cases hid : m.id ∈ t.ids
  · simp only [hid, if_true]
    cases Map.find? t.collisions m.id
    all_goals
      show i ∈ t.ids ↔ i = m.id ∨ i ∈ t.ids
      constructor
      · exact Or.inr
      · rintro (rfl | hi)
        · exact hid
        · exact hi
  · simp only [hid, if_false]
    show i ∈ m.id :: t.ids ↔ i = m.id ∨ i ∈ t.ids
    simp [List.mem_cons]

theorem add_meta_ids_mono {p : CanonicalPathBuf} {m : ResourceMeta} {t : Tables}
    {i : ResourceId} (h : i ∈ t.ids) : i ∈ (add_meta p m t).ids :=
  mem_ids_add_meta.2 (Or.inr h)

theorem add_meta_wf_known {t : Tables} {p : CanonicalPathBuf} {m : ResourceMeta}
    (h : WfT t) (hp : p ∉ Map.keys t.path2meta) (hid : m.id ∈ t.ids)
    (c : Nat) (hc : countId t.path2meta m.id = c) (hc1 : 1 ≤ c) :
    WfT ⟨Map.ins t.path2meta p m, Map.ins t.collisions m.id (c + 1), t.ids⟩ := by
  have hcnt : ∀ i, countId (Map.ins t.path2meta p m) i
      = countId t.path2meta i + (if m.id = i then 1 else 0) :=
    fun i => countId_ins_fresh hp
  refine ⟨?_, ?_, ?_, ?_, ?_, ?_, ?_, ?_⟩
  · exact Map.nodup_keys_ins (wf_nodup_p2m h) p m
  · show t.ids.Nodup
    exact wf_nodup_ids h
  · exact Map.nodup_keys_ins (wf_nodup_coll h) m.id (c + 1)
  · intro pm hpm
    rcases Map.mem_ins.1 hpm with hpm | hpm
    · rw [hpm]; exact hid
    · exact wf_mem_ids h pm hpm.1
  · intro i hi
    have h1 := wf_ids_count h i hi
    show 1 ≤ countId (Map.ins t.path2meta p m) i
    rw [hcnt]
    omega
  · intro pr hpr
    rcases Map.mem_ins.1 hpr with hpr | hpr
    · subst hpr
      show countId (Map.ins t.path2meta p m) m.id = c + 1
      rw [hcnt, if_pos rfl, hc]
    · have hne : ¬ m.id = pr.1 := fun hh => hpr.2 hh.symm
      show countId (Map.ins t.path2meta p m) pr.1 = pr.2
      rw [hcnt, if_neg hne, Nat.add_zero]
      exact wf_coll_count h pr hpr.1
  · intro pr hpr
    rcases Map.mem_ins.1 hpr with hpr | hpr
    · subst hpr; omega
    · exact wf_coll_pos h pr hpr.1
  · intro pm hpm h2
    by_cases hii : pm.2.id = m.id
    · show (Map.find? (Map.ins t.collisions m.id (c + 1)) pm.2.id).isSome = true
      rw [hii, Map.find?_ins_self]
      rfl
    · show (Map.find? (Map.ins t.collisions m.id (c + 1)) pm.2.id).isSome = true
      rw [Map.find?_ins_ne hii]
      have hpm' : pm ∈ t.path2meta := by
        rcases Map.mem_ins.1 hpm with hh | hh
        · exact absurd (by rw [hh]) hii
        · exact hh.1
      have h2' : 2 ≤ countId (Map.ins t.path2meta p m) pm.2.id := h2
      rw [hcnt, if_neg (fun hh => hii hh.symm)] at h2'
      exact wf_coll_multi h pm hpm' (by omega)

theorem add_meta_wf {t : Tables} {p : CanonicalPathBuf} {m : ResourceMeta}
    (h : WfT t) (hp : p ∉ Map.keys t.path2meta) : WfT (add_meta p m t) := by
  have hcnt : ∀ i, countId (Map.ins t.path2meta p m) i
      = countId t.path2meta i + (if m.id = i then 1 else 0) :=
    fun i => countId_ins_fresh hp
  simp only [add_meta]
  by_cases hid : m.id ∈ t.ids
  · have hone : 1 ≤ countId t.path2meta m.id := wf_ids_count h m.id hid
    cases hf : Map.find? t.collisions m.id with
    | some n =>
      have hn : countId t.path2meta m.id = n := wf_find?_coll_count h hf
      simp only [hid, if_true]
      exact add_meta_wf_known h hp hid n hn (by omega)
    | none =>
      have hle : countId t.path2meta m.id ≤ 1 := wf_coll_none_count_le_one h hf
      have heq : countId t.path2meta m.id = 1 := by omega
      simp only [hid, if_true]
      exact add_meta_wf_known h hp hid 1 heq (by omega)
  · have hzero : countId t.path2meta m.id = 0 := wf_not_mem_ids_count_zero h hid
    have hcollnone : Map.find? t.collisions m.id = none := wf_not_mem_ids_coll_none h hid
    simp only [hid, if_false]
    refine ⟨?_, ?_, ?_, ?_, ?_, ?_, ?_, ?_⟩
    · exact Map.nodup_keys_ins (wf_nodup_p2m h) p m
    · exact List.nodup_cons.2 ⟨hid, wf_nodup_ids h⟩
    · show (Map.keys t.collisions).Nodup
      exact wf_nodup_coll h
    · intro pm hpm
      rcases Map.mem_ins.1 hpm with hpm | hpm
      · rw [hpm]; exact List.mem_cons_self _ _
      · exact List.mem_cons_of_mem _ (wf_mem_ids h pm hpm.1)
    · intro i hi
      show 1 ≤ countId (Map.ins t.path2meta p m) i
      rcases List.mem_cons.1 hi with hi | hi
      · rw [hcnt, ← hi, if_pos rfl] at *
        omega
      · have := wf_ids_count h i hi
        rw [hcnt]
        omega
    · intro pr hpr
      have hne : ¬ m.id = pr.1 := by
        intro hh
        exact (Map.find?_none_not_key hcollnone pr hpr) hh.symm
      show countId (Map.ins t.path2meta p m) pr.1 = pr.2
      rw [hcnt, if_neg hne, Nat.add_zero]
      exact wf_coll_count h pr hpr
    · show ∀ pr ∈ t.collisions, 1 ≤ pr.2
      exact wf_coll_pos h
    · intro pm hpm h2
      by_cases hii : pm.2.id = m.id
      · exfalso
        have h2' : 2 ≤ countId (Map.ins t.path2meta p m) pm.2.id := h2
        rw [hcnt, hii, if_pos rfl] at h2'
        omega
      · have hpm' : pm ∈ t.path2meta := by
          rcases Map.mem_ins.1 hpm with hh | hh
          · exact absurd (by rw [hh]) hii
          · exact hh.1
        have h2' : 2 ≤ countId (Map.ins t.path2meta p m) pm.2.id := h2
        rw [hcnt, if_neg (fun hh => hii hh.symm)] at h2'
        exact wf_coll_multi h pm hpm' (by omega)

/-! ### insertAll lemmas -/

theorem insertAll_wf {l : Map CanonicalPathBuf ResourceMeta} {t : Tables}
    (h : WfT t) (hnd : (Map.keys l).Nodup)
    (hfresh : ∀ k ∈ Map.keys l, k ∉ Map.keys t.path2meta) : WfT (insertAll t l) := by
  induction l generalizing t with
  | nil => exact h
  | cons pm l ih =>
    simp only [Map.keys, List.map_cons, List.nodup_cons] at hnd
    apply ih (add_meta_wf h (hfresh pm.1 (by simp [Map.keys])))
    · exact hnd.2
    · intro k hk
      rw [mem_keys_add_meta]
      push_neg
      constructor
      · intro hkp
        exact hnd.1 (hkp ▸ hk)
      · exact hfresh k (List.mem_cons_of_mem _ hk)

theorem insertAll_ids_mono {l : Map CanonicalPathBuf ResourceMeta} {t : Tables}
    {i : ResourceId} (h : i ∈ t.ids) : i ∈ (insertAll t l).ids := by
  induction l generalizing t with
  | nil => exact h
  | cons pm l ih => exact ih (add_meta_ids_mono h)

theorem find?_insertAll_of_not_mem {l : Map CanonicalPathBuf ResourceMeta} {t : Tables}
    {x : CanonicalPathBuf} (hx : x ∉ Map.keys l) :
    Map.find? (insertAll t l).path2meta x = Map.find? t.path2meta x := by
  induction l generalizing t with
  | nil => rfl
  | cons pm l ih =>
    simp only [Map.keys, List.map_cons, List.mem_cons] at hx
    push_neg at hx
    rw [insertAll, List.foldl_cons]
    rw [show List.foldl (fun t pm => add_meta pm.1 pm.2 t) (add_meta pm.1 pm.2 t) l
        = insertAll (add_meta pm.1 pm.2 t) l from rfl]
    rw [ih (by simpa [Map.keys] using hx.2), find?_add_meta_ne hx.1]

theorem find?_insertAll_of_mem {l : Map CanonicalPathBuf ResourceMeta} {t : Tables}
    {x : CanonicalPathBuf} {v : ResourceMeta} (hnd : (Map.keys l).Nodup)
    (hv : Map.find? l x = some v) :
    Map.find? (insertAll t l).path2meta x = some v := by
  induction l generalizing t with
  | nil => simp [Map.find?] at hv
  | cons pm l ih =>
    simp only [Map.keys, List.map_cons, List.nodup_cons] at hnd
    rw [insertAll, List.foldl_cons]
    rw [show List.foldl (fun t pm => add_meta pm.1 pm.2 t) (add_meta pm.1 pm.2 t) l
        = insertAll (add_meta pm.1 pm.2 t) l from rfl]
    by_cases hp : pm.1 = x
    · have hveq : v = pm.2 := by
        simp only [Map.find?, hp, if_pos] at hv
        exact (Option.some.inj hv).symm
      have hxl : x ∉ Map.keys l := fun hh => hnd.1 (hp ▸ hh)
      rw [find?_insertAll_of_not_mem hxl, hveq, ← hp, find?_add_meta_self]
    · simp only [Map.find?, hp, if_false] at hv
      exact ih hnd.2 hv

theorem mem_keys_insertAll {l : Map CanonicalPathBuf ResourceMeta} {t : Tables}
    {x : CanonicalPathBuf} :
    x ∈ Map.keys (insertAll t l).path2meta ↔
      x ∈ Map.keys l ∨ x ∈ Map.keys t.path2meta := by
  induction l generalizing t with
  | nil => simp [insertAll, Map.keys]
  | cons pm l ih =>
    rw [insertAll, List.foldl_cons]
    rw [show List.foldl (fun t pm => add_meta pm.1 pm.2 t) (add_meta pm.1 pm.2 t) l
        = insertAll (add_meta pm.1 pm.2 t) l from rfl]
    rw [ih, mem_keys_add_meta]
    simp only [Map.keys, List.map_cons, List.mem_cons]
    tauto

/-! ### retraction lemmas -/

/-- The three index structures inside the update-loop state. -/
def UpdSt.tables (st : UpdSt) : Tables := ⟨st.path2meta, st.collisions, st.ids⟩

theorem wf_retract_dec {t : Tables} {q : CanonicalPathBuf} {meta : ResourceMeta} {n : Nat}
    (h : WfT t) (hf : Map.find? t.path2meta q = some meta)
    (hcf : Map.find? t.collisions meta.id = some n) (hn2 : 1 < n) :
    WfT ⟨Map.erase t.path2meta q,
      Map.ins (Map.erase t.collisions meta.id) meta.id (n - 1), t.ids⟩ := by
  have hcnt : ∀ i, countId t.path2meta i
      = countId (Map.erase t.path2meta q) i + (if meta.id = i then 1 else 0) :=
    fun i => countId_erase_of_find? (wf_nodup_p2m h) hf
  have hn : countId t.path2meta meta.id = n := wf_find?_coll_count h hcf
  have hcnt' : countId (Map.erase t.path2meta q) meta.id = n - 1 := by
    have := hcnt meta.id
    rw [if_pos rfl] at this
    omega
  refine ⟨?_, ?_, ?_, ?_, ?_, ?_, ?_, ?_⟩
  · exact Map.nodup_keys_erase (wf_nodup_p2m h) q
  · show t.ids.Nodup
    exact wf_nodup_ids h
  · exact Map.nodup_keys_ins (Map.nodup_keys_erase (wf_nodup_coll h) meta.id) meta.id (n - 1)
  · intro pm hpm
    exact wf_mem_ids h pm (Map.mem_erase.1 hpm).1
  · intro i hi
    show 1 ≤ countId (Map.erase t.path2meta q) i
    by_cases hii : meta.id = i
    · rw [← hii, hcnt']
      omega
    · have h1 := wf_ids_count h i hi
      have h2 := hcnt i
      rw [if_neg hii] at h2
      omega
  · intro pr hpr
    rcases Map.mem_ins.1 hpr with hpr | hpr
    · subst hpr
      exact hcnt'
    · have hprc : pr ∈ t.collisions := (Map.mem_erase.1 hpr.1).1
      have hne : ¬ meta.id = pr.1 := fun hh => hpr.2 hh.symm
      show countId (Map.erase t.path2meta q) pr.1 = pr.2
      have h2 := hcnt pr.1
      rw [if_neg hne] at h2
      have := wf_coll_count h pr hprc
      omega
  · intro pr hpr
    rcases Map.mem_ins.1 hpr with hpr | hpr
    · subst hpr
      show 1 ≤ n - 1
      omega
    · exact wf_coll_pos h pr (Map.mem_erase.1 hpr.1).1
  · intro pm hpm h2
    by_cases hii : pm.2.id = meta.id
    · show (Map.find? (Map.ins (Map.erase t.collisions meta.id) meta.id (n - 1))
        pm.2.id).isSome = true
      rw [hii, Map.find?_ins_self]
      rfl
    · show (Map.find? (Map.ins (Map.erase t.collisions meta.id) meta.id (n - 1))
        pm.2.id).isSome = true
      rw [Map.find?_ins_ne hii, Map.find?_erase_ne hii]
      have hpm' : pm ∈ t.path2meta := (Map.mem_erase.1 hpm).1
      have h2' : 2 ≤ countId (Map.erase t.path2meta q) pm.2.id := h2
      have h3 := hcnt pm.2.id
      rw [if_neg (fun hh => hii hh.symm)] at h3
      exact wf_coll_multi h pm hpm' (by omega)

theorem wf_retract_del {t : Tables} {q : CanonicalPathBuf} {meta : ResourceMeta}
    (h : WfT t) (hf : Map.find? t.path2meta q = some meta)
    (hcnt1 : countId t.path2meta meta.id = 1) :
    WfT ⟨Map.erase t.path2meta q, Map.erase t.collisions meta.id,
      t.ids.erase meta.id⟩ := by
  have hcnt : ∀ i, countId t.path2meta i
      = countId (Map.erase t.path2meta q) i + (if meta.id = i then 1 else 0) :=
    fun i => countId_erase_of_find? (wf_nodup_p2m h) hf
  have hcnt' : countId (Map.erase t.path2meta q) meta.id = 0 := by
    have := hcnt meta.id
    rw [if_pos rfl] at this
    omega
  refine ⟨?_, ?_, ?_, ?_, ?_, ?_, ?_, ?_⟩
  · exact Map.nodup_keys_erase (wf_nodup_p2m h) q
  · exact (wf_nodup_ids h).erase meta.id
  · exact Map.nodup_keys_erase (wf_nodup_coll h) meta.id
  · intro pm hpm
    have hpm' : pm ∈ t.path2meta := (Map.mem_erase.1 hpm).1
    have hii : pm.2.id ≠ meta.id := by
      intro hh
      have := countId_pos_of_mem hpm
      rw [hh, hcnt'] at this
      omega
    show pm.2.id ∈ t.ids.erase meta.id
    exact (List.mem_erase_of_ne hii).2 (wf_mem_ids h pm hpm')
  · intro i hi
    have hi' := ((wf_nodup_ids h).mem_erase_iff).1 hi
    show 1 ≤ countId (Map.erase t.path2meta q) i
    have h1 := wf_ids_count h i hi'.2
    have h2 := hcnt i
    rw [if_neg (fun hh => hi'.1 hh.symm)] at h2
    omega
  · intro pr hpr
    have hprc := Map.mem_erase.1 hpr
    show countId (Map.erase t.path2meta q) pr.1 = pr.2
    have h2 := hcnt pr.1
    rw [if_neg (fun hh => hprc.2 hh.symm)] at h2
    have := wf_coll_count h pr hprc.1
    omega
  · intro pr hpr
    exact wf_coll_pos h pr (Map.mem_erase.1 hpr).1
  · intro pm hpm h2
    have hpm' : pm ∈ t.path2meta := (Map.mem_erase.1 hpm).1
    have h2' : 2 ≤ countId (Map.erase t.path2meta q) pm.2.id := h2
    have hii : pm.2.id ≠ meta.id := by
      intro hh
      rw [hh, hcnt'] at h2'
      omega
    show (Map.find? (Map.erase t.collisions meta.id) pm.2.id).isSome = true
    rw [Map.find?_erase_ne hii]
    have h3 := hcnt pm.2.id
    rw [if_neg (fun hh => hii hh.symm)] at h3
    exact wf_coll_multi h pm hpm' (by omega)

theorem retractStep_wf {st : UpdSt} {q : CanonicalPathBuf} (h : WfT st.tables) :
    WfT (retractStep st q).tables := by
  cases hf : Map.find? st.path2meta q with
  | none =>
    have heq : (retractStep st q).tables = st.tables := by
      simp [retractStep, hf, UpdSt.tables]
    rw [heq]
    exact h
  | some meta =>
    cases hcf : Map.find? st.collisions meta.id with
    | some n =>
      by_cases hn2 : 1 < n
      · have heq : (retractStep st q).tables
            = ⟨Map.erase st.path2meta q,
                Map.ins (Map.erase st.collisions meta.id) meta.id (n - 1), st.ids⟩ := by
          simp [retractStep, hf, hcf, hn2, UpdSt.tables]
        rw [heq]
        exact wf_retract_dec h hf hcf hn2
      · have hn1 : countId st.path2meta meta.id = 1 := by
          have h1 : countId st.path2meta meta.id = n := wf_find?_coll_count h hcf
          have h2 := wf_find?_coll_pos h hcf
          omega
        have heq : (retractStep st q).tables
            = ⟨Map.erase st.path2meta q, Map.erase st.collisions meta.id,
                st.ids.erase meta.id⟩ := by
          simp [retractStep, hf, hcf, hn2, UpdSt.tables]
        rw [heq]
        exact wf_retract_del h hf hn1
    | none =>
      have hle : countId st.path2meta meta.id ≤ 1 := wf_coll_none_count_le_one h hcf
      have hge : 0 < countId st.path2meta meta.id :=
        countId_pos_of_mem (Map.find?_some_mem hf)
      have hn1 : countId st.path2meta meta.id = 1 := by omega
      have heq : (retractStep st q).tables
          = ⟨Map.erase st.path2meta q, Map.erase st.collisions meta.id,
              st.ids.erase meta.id⟩ := by
        simp [retractStep, hf, hcf, UpdSt.tables]
      rw [heq]
      exact wf_retract_del h hf hn1

theorem foldl_retract_wf {l : List CanonicalPathBuf} {st : UpdSt}
    (h : WfT st.tables) : WfT ((l.foldl retractStep st).tables) := by
  induction l generalizing st with
  | nil => exact h
  | cons q l ih => exact ih (retractStep_wf h)

theorem retractSt_wf {idx : ResourceIndex} (h : WfT idx.toTables) :
    WfT (retractSt idx).tables := by
  apply foldl_retract_wf
  exact h

theorem retractStep_p2m {st : UpdSt} {q : CanonicalPathBuf} :
    (retractStep st q).path2meta
      = match Map.find? st.path2meta q with
        | some _ => Map.erase st.path2meta q
        | none => st.path2meta := by
  cases hf : Map.find? st.path2meta q with
  | none => simp [retractStep, hf]
  | some meta =>
    by_cases hk : 1 < (Map.find? st.collisions meta.id).getD 1 <;>
      simp [retractStep, hf, hk]

theorem retractStep_find?_self {st : UpdSt} {q : CanonicalPathBuf} :
    Map.find? (retractStep st q).path2meta q = none := by
  rw [retractStep_p2m]
  cases hf : Map.find? st.path2meta q with
  | none => exact hf
  | some meta => exact Map.find?_erase_self

theorem retractStep_find?_ne {st : UpdSt} {q x : CanonicalPathBuf} (h : x ≠ q) :
    Map.find? (retractStep st q).path2meta x = Map.find? st.path2meta x := by
  rw [retractStep_p2m]
  cases hf : Map.find? st.path2meta q with
  | none => rfl
  | some meta => exact Map.find?_erase_ne h

theorem retractStep_find?_none {st : UpdSt} {q x : CanonicalPathBuf}
    (h : Map.find? st.path2meta x = none) :
    Map.find? (retractStep st q).path2meta x = none := by
  by_cases hx : x = q
  · rw [hx]; exact retractStep_find?_self
  · rw [retractStep_find?_ne hx]; exact h

theorem foldl_retract_find?_none {l : List CanonicalPathBuf} {st : UpdSt}
    {x : CanonicalPathBuf} (h : Map.find? st.path2meta x = none) :
    Map.find? ((l.foldl retractStep st).path2meta) x = none := by
  induction l generalizing st with
  | nil => exact h
  | cons q l ih => exact ih (retractStep_find?_none h)

theorem foldl_retract_find?_mem {l : List CanonicalPathBuf} {st : UpdSt}
    {x : CanonicalPathBuf} (hx : x ∈ l) :
    Map.find? ((l.foldl retractStep st).path2meta) x = none := by
  induction l generalizing st with
  | nil => simp at hx
  | cons q l ih =>
    rcases List.mem_cons.1 hx with hx | hx
    · subst hx
      rw [List.foldl_cons]
      exact foldl_retract_find?_none retractStep_find?_self
    · rw [List.foldl_cons]
      exact ih hx

theorem foldl_retract_find?_not_mem {l : List CanonicalPathBuf} {st : UpdSt}
    {x : CanonicalPathBuf} (hx : x ∉ l) :
    Map.find? ((l.foldl retractStep st).path2meta) x = Map.find? st.path2meta x := by
  induction l generalizing st with
  | nil => rfl
  | cons q l ih =>
    simp only [List.mem_cons] at hx
    push_neg at hx
    rw [List.foldl_cons, ih hx.2, retractStep_find?_ne hx.1]

theorem retractStep_ids_sub {st : UpdSt} {q : CanonicalPathBuf} {i : ResourceId}
    (h : i ∈ (retractStep st q).ids) : i ∈ st.ids := by
  cases hf : Map.find? st.path2meta q with
  | none =>
    have heq : (retractStep st q).ids = st.ids := by simp [retractStep, hf]
    rwa [heq] at h
  | some meta =>
    by_cases hk : 1 < (Map.find? st.collisions meta.id).getD 1
    · have heq : (retractStep st q).ids = st.ids := by simp [retractStep, hf, hk]
      rwa [heq] at h
    · have heq : (retractStep st q).ids = st.ids.erase meta.id := by
        simp [retractStep, hf, hk]
      rw [heq] at h
      exact List.mem_of_mem_erase h

theorem foldl_retract_ids_sub {l : List CanonicalPathBuf} {st : UpdSt} {i : ResourceId}
    (h : i ∈ (l.foldl retractStep st).ids) : i ∈ st.ids := by
  induction l generalizing st with
  | nil => exact h
  | cons q l ih => exact retractStep_ids_sub (ih h)

theorem retractStep_warned_found {st : UpdSt} {q : CanonicalPathBuf} {m : ResourceMeta}
    (hf : Map.find? st.path2meta q = some m) :
    (retractStep st q).warned = st.warned := by
  by_cases hk : 1 < (Map.find? st.collisions m.id).getD 1 <;>
    simp [retractStep, hf, hk]

theorem foldl_retract_warned {l : List CanonicalPathBuf} {st : UpdSt}
    (hnd : l.Nodup) (hall : ∀ x ∈ l, x ∈ Map.keys st.path2meta) :
    (l.foldl retractStep st).warned = st.warned := by
  induction l generalizing st with
  | nil => rfl
  | cons q l ih =>
    rcases List.nodup_cons.1 hnd with ⟨hq, hnd'⟩
    have hqk := hall q (List.mem_cons_self _ _)
    rcases Option.isSome_iff_exists.1 (Map.find?_isSome.2 hqk) with ⟨m, hm⟩
    rw [List.foldl_cons, ih hnd', retractStep_warned_found hm]
    intro x hx
    have hxq : x ≠ q := fun hh => hq (by rw [← hh]; exact hx)
    rw [← Map.find?_isSome, retractStep_find?_ne hxq, Map.find?_isSome]
    exact hall x (List.mem_cons_of_mem _ hx)

/-! ### keys of the added map are fresh after retraction -/

theorem mem_keys_filter_sub {κ ν : Type} {l : Map κ ν} {f : κ × ν → Bool} {k : κ}
    (h : k ∈ Map.keys (l.filter f)) : k ∈ Map.keys l :=
  ((List.filter_sublist l).map Prod.fst).subset h

theorem mem_keys_scan_sub {E : Map CanonicalPathBuf DirEntry} {k : CanonicalPathBuf}
    (h : k ∈ Map.keys (scan_metadata E)) : k ∈ Map.keys E := by
  rw [scan_metadata] at h
  have h1 := Map.mem_keys_collectKV.1 h
  rcases List.mem_map.1 h1 with ⟨pm, hpm, hk⟩
  rcases List.mem_filterMap.1 hpm with ⟨pe, hpe, hf⟩
  cases hsc : pe.2.scan? with
  | none => rw [hsc] at hf; simp at hf
  | some m =>
    rw [hsc] at hf
    have hf' : (pe.1, m) = pm := Option.some.inj hf
    rw [← hf'] at hk
    rw [← hk]
    exact Map.mem_keys_of_mem hpe

theorem mem_keys_scanned_of_entry {E : Map CanonicalPathBuf DirEntry}
    {p : CanonicalPathBuf} {e : DirEntry} {m : ResourceMeta}
    (hmem : (p, e) ∈ E) (hsc : e.scan? = some m) :
    p ∈ Map.keys (scan_metadata E) := by
  rw [scan_metadata]
  apply Map.mem_keys_collectKV.2
  have hfm : (p, m) ∈ E.filterMap (fun pe => pe.2.scan?.map (fun m => (pe.1, m))) :=
    List.mem_filterMap.2 ⟨(p, e), hmem, by rw [hsc]; rfl⟩
  exact Map.mem_keys_of_mem hfm

theorem created_not_prev {idx : ResourceIndex} {k : CanonicalPathBuf}
    (h : k ∈ Map.keys (createdPaths idx)) : Map.find? idx.path2meta k = none := by
  rcases List.mem_map.1 h with ⟨pe, hpe, hk⟩
  rcases List.mem_filter.1 hpe with ⟨hpe', hcond⟩
  rw [Map.find?_eq_none]
  intro hprev
  have hcurr : k ∈ currPaths idx := hk ▸ Map.mem_keys_of_mem hpe'
  have hpres : k ∈ preservedPaths idx := by
    rw [preservedPaths]
    exact List.mem_filter.2 ⟨hcurr, by simpa using hprev⟩
  rw [decide_eq_true_iff] at hcond
  rw [hk] at hcond
  exact hcond hpres

theorem added_keys_fresh {idx : ResourceIndex} :
    ∀ k ∈ Map.keys (addedMap idx), k ∉ Map.keys (retractSt idx).path2meta := by
  intro k hk hmem
  have hs : (Map.find? (retractSt idx).path2meta k).isSome := Map.find?_isSome.2 hmem
  have h1 := Map.mem_keys_collectKV.1 hk
  have h2 : k ∈ Map.keys (candidateList idx) :=
    ((List.filter_sublist _).map Prod.fst).subset h1
  rw [candidateList] at h2
  rw [show Map.keys (scan_metadata (updatedPaths idx) ++ scan_metadata (createdPaths idx))
      = Map.keys (scan_metadata (updatedPaths idx))
        ++ Map.keys (scan_metadata (createdPaths idx)) from List.map_append _ _ _] at h2
  rcases List.mem_append.1 h2 with h3 | h3
  · have h4 : k ∈ retractionList idx :=
      List.mem_append_right _ (mem_keys_scan_sub h3)
    have hnone : Map.find? (retractSt idx).path2meta k = none := by
      rw [retractSt]
      exact foldl_retract_find?_mem h4
    rw [hnone] at hs
    exact Bool.noConfusion hs
  · have h4 := created_not_prev (mem_keys_scan_sub h3)
    have hnone : Map.find? (retractSt idx).path2meta k = none := by
      rw [retractSt]
      exact foldl_retract_find?_none h4
    rw [hnone] at hs
    exact Bool.noConfusion hs

/-- update preserves the invariant. -/
theorem updateCore_wf {idx : ResourceIndex} (h : WfT idx.toTables) :
    WfT (updateCore idx).2.toTables := by
  show WfT (insertAll (retractSt idx).tables (addedMap idx))
  exact insertAll_wf (retractSt_wf h) (Map.nodup_keys_collectKV _) added_keys_fresh

/-! ### classification helper lemmas -/

theorem mem_preserved_iff {idx : ResourceIndex} {p : CanonicalPathBuf} :
    p ∈ preservedPaths idx ↔ p ∈ currPaths idx ∧ p ∈ prevPaths idx := by
  rw [preservedPaths, List.mem_filter]
  simp

theorem updatedCheck_mem_preserved {idx : ResourceIndex} {pe : CanonicalPathBuf × DirEntry}
    (h : updatedCheck idx pe = true) : pe.1 ∈ preservedPaths idx := by
  by_cases hp : pe.1 ∈ preservedPaths idx
  · exact hp
  · rw [updatedCheck, if_neg hp] at h
    exact Bool.noConfusion h

theorem mem_keys_updated {idx : ResourceIndex} {k : CanonicalPathBuf}
    (h : k ∈ Map.keys (updatedPaths idx)) : k ∈ preservedPaths idx := by
  rcases List.mem_map.1 h with ⟨pe, hpe, hk⟩
  rcases List.mem_filter.1 hpe with ⟨_, hcheck⟩
  exact hk ▸ updatedCheck_mem_preserved hcheck

theorem vanished_not_preserved {idx : ResourceIndex} {k : CanonicalPathBuf}
    (h : k ∈ vanishedPaths idx) : k ∉ preservedPaths idx := by
  rcases List.mem_filter.1 h with ⟨_, hcond⟩
  simpa using hcond

theorem retractionList_nodup {idx : ResourceIndex} (h : WfT idx.toTables) :
    (retractionList idx).Nodup := by
  apply List.Nodup.append
  · exact (List.filter_sublist _).nodup (wf_nodup_p2m h)
  · exact ((List.filter_sublist _).map Prod.fst).nodup (Map.nodup_keys_collectKV _)
  · intro x hx hx'
    exact vanished_not_preserved hx (mem_keys_updated hx')

theorem retractionList_sub_prev {idx : ResourceIndex} :
    ∀ x ∈ retractionList idx, x ∈ Map.keys idx.path2meta := by
  intro x hx
  rcases List.mem_append.1 hx with hx | hx
  · exact (List.filter_sublist _).subset hx
  · exact (mem_preserved_iff.1 (mem_keys_updated hx)).2

/-- The "Path was not known" warning is never logged: the retraction loop
always finds its path in path2meta. -/
theorem retractSt_warned_false {idx : ResourceIndex} (h : WfT idx.toTables) :
    (retractSt idx).warned = false := by
  rw [retractSt, foldl_retract_warned (retractionList_nodup h) retractionList_sub_prev]

/-! ### collision counts after a cold build are at least two -/

theorem add_meta_coll_ge_two {t : Tables} {p : CanonicalPathBuf} {m : ResourceMeta}
    (h : ∀ pr ∈ t.collisions, 2 ≤ pr.2) :
    ∀ pr ∈ (add_meta p m t).collisions, 2 ≤ pr.2 := by
  by_cases hid : m.id ∈ t.ids
  · cases hcf : Map.find? t.collisions m.id with
    | some n =>
      have hco : (add_meta p m t).collisions = Map.ins t.collisions m.id (n + 1) := by
        simp [add_meta, hid, hcf]
      rw [hco]
      intro pr hpr
      rcases Map.mem_ins.1 hpr with hpr | hpr
      · subst hpr
        have := h _ (Map.find?_some_mem hcf)
        omega
      · exact h pr hpr.1
    | none =>
      have hco : (add_meta p m t).collisions = Map.ins t.collisions m.id 2 := by
        simp [add_meta, hid, hcf]
      rw [hco]
      intro pr hpr
      rcases Map.mem_ins.1 hpr with hpr | hpr
      · subst hpr
        omega
      · exact h pr hpr.1
  · have hco : (add_meta p m t).collisions = t.collisions := by
      simp [add_meta, hid]
    rw [hco]
    exact h

theorem insertAll_coll_ge_two {l : Map CanonicalPathBuf ResourceMeta} {t : Tables}
    (h : ∀ pr ∈ t.collisions, 2 ≤ pr.2) :
    ∀ pr ∈ (insertAll t l).collisions, 2 ≤ pr.2 := by
  induction l generalizing t with
  | nil => exact h
  | cons pm l ih => exact ih (add_meta_coll_ge_two h)

theorem build_coll_ge_two (root_path : Option FSNode) :
    ∀ pr ∈ (buildIdx root_path).collisions, 2 ≤ pr.2 :=
  insertAll_coll_ge_two (by intro pr hpr; simp at hpr)

/-- A built index always satisfies the invariant. -/
theorem buildIdx_wf (root_path : Option FSNode) : WfT (buildIdx root_path).toTables := by
  show WfT (insertAll ⟨[], [], []⟩ (scan_metadata (discover_paths root_path)))
  apply insertAll_wf
  · exact ⟨List.nodup_nil, List.nodup_nil, List.nodup_nil,
      by intro pm h; simp at h, by intro i h; simp at h,
      by intro pr h; simp at h, by intro pr h; simp at h,
      by intro pm h; simp at h⟩
  · exact Map.nodup_keys_collectKV _
  · intro k _ hk
    simp [Map.keys] at hk

/-! ### discovery as reachability through non-hidden entries -/

mutual

/-- attrs sit at a file reachable from t along the (leaf-)name chain
`names`, passing only through readable directories. -/
def fileAtB : FSNode → List EntryName → FileAttrs → Bool
  | .file n a, names, attrs => decide (names = [n]) && decide (attrs = a)
  | .dir n readErr children, names, attrs =>
    match names with
    | [] => false
    | nm :: rest =>
      decide (nm = n) && !readErr && fileAtAnyB children rest attrs

def fileAtAnyB : List FSNode → List EntryName → FileAttrs → Bool
  | [], _, _ => false
  | c :: cs, names, attrs => fileAtB c names attrs || fileAtAnyB cs names attrs

end

theorem mem_discoverList {cs : List FSNode} {x : CanonicalPathBuf × DirEntry} :
    x ∈ discoverList cs ↔ ∃ c ∈ cs, x ∈ discoverNode c := by
  induction cs with
  | nil => simp [discoverList]
  | cons c cs ih =>
    simp only [discoverList, List.mem_append, ih, List.mem_cons]
    constructor
    · rintro (h | ⟨c', hc', hx⟩)
      · exact ⟨c, Or.inl rfl, h⟩
      · exact ⟨c', Or.inr hc', hx⟩
    · rintro ⟨c', hc' | hc', hx⟩
      · exact Or.inl (hc' ▸ hx)
      · exact Or.inr ⟨c', hc', hx⟩

theorem fileAtAnyB_iff {cs : List FSNode} {names : List EntryName} {attrs : FileAttrs} :
    fileAtAnyB cs names attrs = true ↔ ∃ c ∈ cs, fileAtB c names attrs = true := by
  induction cs with
  | nil => simp [fileAtAnyB]
  | cons c cs ih =>
    simp only [fileAtAnyB, Bool.or_eq_true, ih, List.mem_cons]
    constructor
    · rintro (h | ⟨c', hc', hx⟩)
      · exact ⟨c, Or.inl rfl, h⟩
      · exact ⟨c', Or.inr hc', hx⟩
    · rintro ⟨c', hc' | hc', hx⟩
      · exact Or.inl (hc' ▸ hx)
      · exact Or.inr ⟨c', hc', hx⟩

/-- Every file reachable along a non-hidden name chain, with successful
canonicalization, is discovered. -/
theorem discover_of_fileAt {t : FSNode} {names : List EntryName} {attrs : FileAttrs}
    {p : CanonicalPathBuf}
    (h : fileAtB t names attrs = true)
    (hh : names.all (fun n => !is_hidden n) = true)
    (hc : attrs.canon? = some p) :
    (p, ⟨attrs.scan?, attrs.fresh?⟩) ∈ discoverNode t := by
  induction names generalizing t with
  | nil =>
    cases t with
    | file n a => simp [fileAtB] at h
    | dir n readErr children => simp [fileAtB] at h
  | cons nm rest ih =>
    cases t with
    | file n a =>
      rw [fileAtB, Bool.and_eq_true, decide_eq_true_iff, decide_eq_true_iff] at h
      obtain ⟨hnames, hattrs⟩ := h
      injection hnames with hnm hrest
      simp only [List.all_cons, Bool.and_eq_true] at hh
      have hhid : is_hidden n = false := by
        have := hh.1
        rw [hnm] at this
        simp at this
        exact this
      subst hattrs
      rw [show discoverNode (FSNode.file n attrs)
          = if is_hidden n then []
            else match attrs.canon? with
              | some p => [(p, ⟨attrs.scan?, attrs.fresh?⟩)]
              | none => [] from rfl]
      rw [hhid, hc]
      simp
    | dir n readErr children =>
      rw [fileAtB] at h
      rw [Bool.and_eq_true, Bool.and_eq_true, decide_eq_true_iff] at h
      obtain ⟨⟨hnm, herr⟩, hany⟩ := h
      simp only [List.all_cons, Bool.and_eq_true] at hh
      have hhid : is_hidden n = false := by
        have := hh.1
        rw [hnm] at this
        simp at this
        exact this
      have herr' : readErr = false := by
        cases readErr
        · rfl
        · simp at herr
      rcases fileAtAnyB_iff.1 hany with ⟨c, hcmem, hcfile⟩
      have hx := ih hcfile hh.2
      rw [show discoverNode (FSNode.dir n readErr children)
          = if is_hidden n then [] else if readErr then [] else discoverList children
          from rfl]
      rw [hhid, herr']
      simp only [Bool.false_eq_true, if_false]
      exact mem_discoverList.2 ⟨c, hcmem, hx⟩

/-- Everything discovered comes from a file reached along a chain of
non-hidden names: nothing below a hidden entry ever surfaces. -/
theorem fileAt_of_discover :
    ∀ (t : FSNode) (p : CanonicalPathBuf) (e : DirEntry),
      (p, e) ∈ discoverNode t →
      ∃ names attrs, fileAtB t names attrs = true
        ∧ names.all (fun n => !is_hidden n) = true
        ∧ attrs.canon? = some p
        ∧ e = ⟨attrs.scan?, attrs.fresh?⟩
  | .file n a, p, e, h => by
    rw [show discoverNode (FSNode.file n a)
        = if is_hidden n then []
          else match a.canon? with
            | some q => [(q, ⟨a.scan?, a.fresh?⟩)]
            | none => [] from rfl] at h
    by_cases hhid : is_hidden n
    · rw [if_pos hhid] at h
      simp at h
    · rw [if_neg hhid] at h
      cases hcan : a.canon? with
      | none => rw [hcan] at h; simp at h
      | some q =>
        rw [hcan] at h
        simp only [List.mem_singleton, Prod.mk.injEq] at h
        refine ⟨[n], a, ?_, ?_, ?_, h.2⟩
        · simp [fileAtB]
        · simp only [List.all_cons, List.all_nil, Bool.and_true]
          simpa using hhid
        · rw [hcan, h.1]
  | .dir n readErr children, p, e, h => by
    rw [show discoverNode (FSNode.dir n readErr children)
        = if is_hidden n then [] else if readErr then [] else discoverList children
        from rfl] at h
    by_cases hhid : is_hidden n
    · rw [if_pos hhid] at h
      simp at h
    · rw [if_neg hhid] at h
      cases readErr with
      | true => simp at h
      | false =>
        simp only [Bool.false_eq_true, if_false] at h
        rcases mem_discoverList.1 h with ⟨c, hcmem, hx⟩
        have hrec := fileAt_of_discover c p e hx
        rcases hrec with ⟨names, attrs, h1, h2, h3, h4⟩
        refine ⟨n :: names, attrs, ?_, ?_, h3, h4⟩
        · have hany : fileAtAnyB children names attrs = true :=
            fileAtAnyB_iff.2 ⟨c, hcmem, h1⟩
          rw [fileAtB]
          simp [hany]
        · simp only [List.all_cons, Bool.and_eq_true]
          exact ⟨by simpa using hhid, h2⟩
  termination_by t => sizeOf t
  decreasing_by
    have := List.sizeOf_lt_of_mem hcmem
    simp only [FSNode.dir.sizeOf_spec]
    omega

/-! ### lemmas for preserved paths with failing fresh reads (C7) -/

theorem mem_insertSet {l : List ResourceId} {i j : ResourceId} :
    j ∈ insertSet l i ↔ j = i ∨ j ∈ l := by
  rw [insertSet]
  by_cases hi : i ∈ l
  · rw [if_pos hi]
    constructor
    · exact Or.inr
    · rintro (rfl | hj)
      · exact hi
      · exact hj
  · rw [if_neg hi]
    exact List.mem_cons

theorem updatedCheck_false_of_fresh_none {idx : ResourceIndex}
    {pe : CanonicalPathBuf × DirEntry} (h : pe.2.fresh? = none) :
    updatedCheck idx pe = false := by
  rw [updatedCheck]
  by_cases hp : pe.1 ∈ preservedPaths idx
  · rw [if_pos hp, h]
  · rw [if_neg hp]

theorem mem_keys_filter_entry {κ ν : Type} [DecidableEq κ] {E : Map κ ν}
    {f : κ × ν → Bool} {k : κ} (hnd : (Map.keys E).Nodup)
    (hk : k ∈ Map.keys (E.filter f)) :
    ∃ v, (k, v) ∈ E ∧ f (k, v) = true := by
  rcases List.mem_map.1 hk with ⟨pe, hpe, hke⟩
  rcases List.mem_filter.1 hpe with ⟨hpe', hf⟩
  refine ⟨pe.2, ?_, ?_⟩
  · rw [← hke]
    exact hpe'
  · rw [← hke]
    exact hf

theorem not_mem_keys_updated_of_fresh_none {idx : ResourceIndex}
    {p : CanonicalPathBuf} {e : DirEntry}
    (hcurr : (p, e) ∈ currEntries idx) (hfr : e.fresh? = none) :
    p ∉ Map.keys (updatedPaths idx) := by
  intro hk
  rcases mem_keys_filter_entry (Map.nodup_keys_collectKV _) hk with ⟨e', hmem, hcheck⟩
  have he : e' = e :=
    Map.value_unique_of_nodup (Map.nodup_keys_collectKV _) hmem hcurr
  rw [he] at hcheck
  rw [updatedCheck_false_of_fresh_none hfr] at hcheck
  exact Bool.noConfusion hcheck

theorem not_mem_retraction_of_fresh_none {idx : ResourceIndex}
    {p : CanonicalPathBuf} {e : DirEntry} {m : ResourceMeta}
    (hcurr : (p, e) ∈ currEntries idx) (hfr : e.fresh? = none)
    (hprev : Map.find? idx.path2meta p = some m) :
    p ∉ retractionList idx := by
  intro hk
  rcases List.mem_append.1 hk with hk | hk
  · apply vanished_not_preserved hk
    exact mem_preserved_iff.2
      ⟨Map.mem_keys_of_mem hcurr,
        Map.find?_isSome.1 (by rw [hprev]; rfl)⟩
  · exact not_mem_keys_updated_of_fresh_none hcurr hfr hk

theorem mem_keys_added_cases {idx : ResourceIndex} {k : CanonicalPathBuf}
    (h : k ∈ Map.keys (addedMap idx)) :
    k ∈ Map.keys (updatedPaths idx) ∨ k ∈ Map.keys (createdPaths idx) := by
  have h1 := Map.mem_keys_collectKV.1 h
  have h2 : k ∈ Map.keys (candidateList idx) :=
    ((List.filter_sublist _).map Prod.fst).subset h1
  rw [candidateList] at h2
  rw [show Map.keys (scan_metadata (updatedPaths idx) ++ scan_metadata (createdPaths idx))
      = Map.keys (scan_metadata (updatedPaths idx))
        ++ Map.keys (scan_metadata (createdPaths idx)) from List.map_append _ _ _] at h2
  rcases List.mem_append.1 h2 with h3 | h3
  · exact Or.inl (mem_keys_scan_sub h3)
  · exact Or.inr (mem_keys_scan_sub h3)

theorem two_keys_count_ge_two {t : Map CanonicalPathBuf ResourceMeta}
    {x q : CanonicalPathBuf} {m meta : ResourceMeta}
    (hnd : (Map.keys t).Nodup) (hx : Map.find? t x = some m)
    (hq : Map.find? t q = some meta) (hne : x ≠ q) (hid : meta.id = m.id) :
    2 ≤ countId t m.id := by
  have h1 := countId_erase_of_find? (i := m.id) hnd hq
  rw [hid, if_pos rfl] at h1
  have h2 : (x, m) ∈ Map.erase t q :=
    Map.mem_erase.2 ⟨Map.find?_some_mem hx, hne⟩
  have h3 : 0 < countId (Map.erase t q) m.id := countId_pos_of_mem h2
  omega

theorem foldl_retract_deleted_safe {l : List CanonicalPathBuf} {st : UpdSt}
    {x : CanonicalPathBuf} {m : ResourceMeta}
    (hx : x ∉ l) (hfind : Map.find? st.path2meta x = some m)
    (hwf : WfT st.tables) (hdel : m.id ∉ st.deleted) :
    m.id ∉ (l.foldl retractStep st).deleted := by
  induction l generalizing st with
  | nil => exact hdel
  | cons q l ih =>
    simp only [List.mem_cons] at hx
    push_neg at hx
    rw [List.foldl_cons]
    apply ih hx.2 (by rw [retractStep_find?_ne hx.1]; exact hfind) (retractStep_wf hwf)
    cases hf : Map.find? st.path2meta q with
    | none =>
      have heq : (retractStep st q).deleted = st.deleted := by
        simp [retractStep, hf]
      rw [heq]
      exact hdel
    | some meta =>
      by_cases hk : 1 < (Map.find? st.collisions meta.id).getD 1
      · have heq : (retractStep st q).deleted = st.deleted := by
          simp [retractStep, hf, hk]
        rw [heq]
        exact hdel
      · have heq : (retractStep st q).deleted = insertSet st.deleted meta.id := by
          simp [retractStep, hf, hk]
        rw [heq]
        rw [mem_insertSet]
        rintro (hii | hii)
        · -- meta.id = m.id would force a collision count of at least 2,
          -- contradicting the not-(1 < k) branch condition
          have h2 : 2 ≤ countId st.path2meta m.id :=
            two_keys_count_ge_two (wf_nodup_p2m hwf) hfind hf hx.1 hii.symm
          rw [hii] at h2
          cases hcf : Map.find? st.collisions meta.id with
          | none =>
            have hle : countId st.path2meta meta.id ≤ 1 :=
              wf_coll_none_count_le_one hwf hcf
            omega
          | some n =>
            have hcc : countId st.path2meta meta.id = n := wf_find?_coll_count hwf hcf
            rw [hcf] at hk
            simp only [Option.getD] at hk
            omega
        · exact hdel hii

/-! ### coherence of scan and fresh timestamps, and idempotence of update -/

/-- The scanned modification timestamp of an entry is no older than the
freshly read one: both read the same on-disk mtime, so a scan performed in
the same pass records a modified value at least as new as what a later
fresh read of the unchanged file returns.  (crate::meta::ResourceMeta::scan
is not under src/; per the spec it snapshots `{identity, modified}` from
the same metadata the fresh read uses.) -/
def entryCoherent (e : DirEntry) : Bool :=
  match e.scan?, e.fresh? with
  | some m, some t => decide (t ≤ m.modified)
  | _, _ => true

/-- Every discovered entry of the root is coherent. -/
def Coherent (root_path : Option FSNode) : Prop :=
  ∀ pe ∈ discover_paths root_path, entryCoherent pe.2 = true

instance (root_path : Option FSNode) : Decidable (Coherent root_path) := by
  unfold Coherent
  infer_instance

theorem entryCoherent_le {e : DirEntry} {m : ResourceMeta} {t : Nat}
    (h : entryCoherent e = true) (hs : e.scan? = some m) (hf : e.fresh? = some t) :
    t ≤ m.modified := by
  rw [entryCoherent, hs, hf] at h
  exact of_decide_eq_true h

/-- When nothing vanished, nothing was updated and nothing survives the
added filter, update is a complete no-op returning the empty diff. -/
theorem updateCore_of_synced {idx : ResourceIndex}
    (h1 : retractionList idx = []) (h2 : addedList idx = []) :
    updateCore idx = (⟨[], []⟩, idx) := by
  have hst : retractSt idx = ⟨idx.path2meta, idx.collisions, idx.ids, [], false⟩ := by
    rw [retractSt, h1]
    rfl
  have hadded : addedMap idx = [] := by
    rw [addedMap, h2]
    rfl
  rw [updateCore, hst, hadded]
  rfl

/-- The keys of the scan-result list are among the keys of its input. -/
theorem keys_scanFilterMap_sublist (E : Map CanonicalPathBuf DirEntry) :
    List.Sublist
      (Map.keys (E.filterMap (fun pe => pe.2.scan?.map (fun m => (pe.1, m)))))
      (Map.keys E) := by
  induction E with
  | nil => exact List.Sublist.refl _
  | cons pe E ih =>
    rw [List.filterMap_cons]
    cases hsc : pe.2.scan? with
    | none => exact ih.trans (List.sublist_cons_self _ _)
    | some m => exact List.Sublist.cons₂ _ ih

/-- Scanning keeps an entry whose scan succeeds. -/
theorem scan_mem_intro {E : Map CanonicalPathBuf DirEntry}
    (hnd : (Map.keys E).Nodup) {p : CanonicalPathBuf} {e : DirEntry} {msc : ResourceMeta}
    (he : (p, e) ∈ E) (hs : e.scan? = some msc) :
    (p, msc) ∈ scan_metadata E := by
  rw [scan_metadata]
  apply Map.mem_collectKV_of_nodup ((keys_scanFilterMap_sublist E).nodup hnd)
  exact List.mem_filterMap.2 ⟨(p, e), he, by rw [hs]; rfl⟩

/-- Every scanned pair comes from an input entry at the same path whose
scan succeeded with that metadata. -/
theorem scan_entry_char {E : Map CanonicalPathBuf DirEntry} {p : CanonicalPathBuf}
    {m1 : ResourceMeta} (hmem : (p, m1) ∈ scan_metadata E) :
    ∃ e, (p, e) ∈ E ∧ e.scan? = some m1 := by
  have h1 := Map.mem_collectKV hmem
  rcases List.mem_filterMap.1 h1 with ⟨pe, hpe, hf⟩
  cases hsc : pe.2.scan? with
  | none => rw [hsc] at hf; exact Option.noConfusion hf
  | some m' =>
    rw [hsc] at hf
    have hf' : (pe.1, m') = (p, m1) := Option.some.inj hf
    have hk : pe.1 = p := congrArg Prod.fst hf'
    have hv : m' = m1 := congrArg Prod.snd hf'
    refine ⟨pe.2, ?_, by rw [hsc, hv]⟩
    rw [← hk]
    exact hpe

/-- Every candidate's metadata comes from the scan of the current entry at
its path. -/
theorem candidate_entry_char {idx : ResourceIndex} {p : CanonicalPathBuf}
    {m1 : ResourceMeta} (h : (p, m1) ∈ candidateList idx) :
    ∃ e, (p, e) ∈ currEntries idx ∧ e.scan? = some m1 := by
  rcases List.mem_append.1 h with h | h
  · rcases scan_entry_char h with ⟨e, he, hsc⟩
    exact ⟨e, (List.filter_sublist _).subset he, hsc⟩
  · rcases scan_entry_char h with ⟨e, he, hsc⟩
    exact ⟨e, (List.filter_sublist _).subset he, hsc⟩

/-- The final path2meta at a key of the added map. -/
theorem find?_update_added {idx : ResourceIndex} {x : CanonicalPathBuf}
    (hx : x ∈ Map.keys (addedMap idx)) :
    Map.find? (updateCore idx).2.path2meta x = Map.find? (addedMap idx) x := by
  rcases Option.isSome_iff_exists.1 (Map.find?_isSome.2 hx) with ⟨v, hv⟩
  rw [hv]
  show Map.find?
    (insertAll
      ⟨(retractSt idx).path2meta, (retractSt idx).collisions, (retractSt idx).ids⟩
      (addedMap idx)).path2meta x = some v
  exact find?_insertAll_of_mem (Map.nodup_keys_collectKV _) hv

/-- The final path2meta away from the added keys: none if retracted,
otherwise the old binding. -/
theorem find?_update_old {idx : ResourceIndex} {x : CanonicalPathBuf}
    (hx : x ∉ Map.keys (addedMap idx)) :
    Map.find? (updateCore idx).2.path2meta x
      = if x ∈ retractionList idx then none else Map.find? idx.path2meta x := by
  have h1 : Map.find? (updateCore idx).2.path2meta x
      = Map.find? (retractSt idx).path2meta x := by
    show Map.find?
      (insertAll
        ⟨(retractSt idx).path2meta, (retractSt idx).collisions, (retractSt idx).ids⟩
        (addedMap idx)).path2meta x = _
    exact find?_insertAll_of_not_mem hx
  rw [h1, retractSt]
  by_cases hr : x ∈ retractionList idx
  · rw [if_pos hr]
    exact foldl_retract_find?_mem hr
  · rw [if_neg hr]
    exact foldl_retract_find?_not_mem hr

/-- A candidate not surviving into added was filtered: its identity was in
ids right after retraction. -/
theorem candidate_filtered {idx : ResourceIndex} {p : CanonicalPathBuf}
    {msc : ResourceMeta} (hp : p ∉ Map.keys (addedMap idx))
    (hc : (p, msc) ∈ candidateList idx) : msc.id ∈ (retractSt idx).ids := by
  by_contra hid
  apply hp
  apply Map.mem_keys_collectKV.2
  apply Map.mem_keys_of_mem (p := (p, msc))
  exact List.mem_filter.2 ⟨hc, by simpa using hid⟩

/-- The ids set only grows during the insertion phase. -/
theorem update_ids_mono {idx : ResourceIndex} {i : ResourceId}
    (h : i ∈ (retractSt idx).ids) : i ∈ (updateCore idx).2.ids := by
  show i ∈ (insertAll
    ⟨(retractSt idx).path2meta, (retractSt idx).collisions, (retractSt idx).ids⟩
    (addedMap idx)).ids
  exact insertAll_ids_mono h

/-! ### a freshly built index is synchronized -/

theorem find?_build (root_path : Option FSNode) (p : CanonicalPathBuf) :
    Map.find? (buildIdx root_path).path2meta p
      = Map.find? (scan_metadata (discover_paths root_path)) p := by
  by_cases hp : p ∈ Map.keys (scan_metadata (discover_paths root_path))
  · rcases Option.isSome_iff_exists.1 (Map.find?_isSome.2 hp) with ⟨v, hv⟩
    rw [hv]
    show Map.find? (insertAll ⟨[], [], []⟩
      (scan_metadata (discover_paths root_path))).path2meta p = some v
    exact find?_insertAll_of_mem (Map.nodup_keys_collectKV _) hv
  · rw [Map.find?_eq_none.2 hp]
    show Map.find? (insertAll ⟨[], [], []⟩
      (scan_metadata (discover_paths root_path))).path2meta p = none
    rw [find?_insertAll_of_not_mem hp]
    rfl

theorem prevPaths_build_iff {root_path : Option FSNode} {p : CanonicalPathBuf} :
    p ∈ prevPaths (buildIdx root_path)
      ↔ p ∈ Map.keys (scan_metadata (discover_paths root_path)) := by
  rw [show prevPaths (buildIdx root_path) = Map.keys (buildIdx root_path).path2meta
      from rfl]
  rw [← Map.find?_isSome, ← Map.find?_isSome, find?_build]

theorem build_vanished_nil (root_path : Option FSNode) :
    vanishedPaths (buildIdx root_path) = [] := by
  apply List.filter_eq_nil_iff.2
  intro p hp
  simp only [decide_eq_true_eq, not_not]
  apply mem_preserved_iff.2
  refine ⟨?_, hp⟩
  have h1 := prevPaths_build_iff.1 hp
  exact mem_keys_scan_sub h1

theorem build_updated_nil (root_path : Option FSNode) (hcoh : Coherent root_path) :
    updatedPaths (buildIdx root_path) = [] := by
  apply List.filter_eq_nil_iff.2
  intro pe hpe
  simp only [Bool.not_eq_true]
  by_cases hpres : pe.1 ∈ preservedPaths (buildIdx root_path)
  · have hprev : pe.1 ∈ prevPaths (buildIdx root_path) := (mem_preserved_iff.1 hpres).2
    rcases Option.isSome_iff_exists.1
        (Map.find?_isSome.2 (prevPaths_build_iff.1 hprev)) with ⟨msc, hmsc⟩
    rcases scan_entry_char (Map.find?_some_mem hmsc) with ⟨e', he', hsc'⟩
    have hee : e' = pe.2 :=
      Map.value_unique_of_nodup (Map.nodup_keys_collectKV _) he'
        (show (pe.1, pe.2) ∈ discover_paths root_path from hpe)
    rw [hee] at hsc'
    have hget : indexGet (buildIdx root_path).path2meta pe.1 = msc := by
      rw [indexGet, find?_build, hmsc]
      rfl
    rw [updatedCheck, if_pos hpres]
    cases hfr : pe.2.fresh? with
    | none => rfl
    | some tf =>
      have hcohe := entryCoherent_le (hcoh pe hpe) hsc' hfr
      rw [hget]
      exact decide_eq_false (Nat.not_lt.2 hcohe)
  · rw [updatedCheck, if_neg hpres]

theorem build_created_scan_none {root_path : Option FSNode}
    {pe : CanonicalPathBuf × DirEntry}
    (hpe : pe ∈ createdPaths (buildIdx root_path)) : pe.2.scan? = none := by
  rcases List.mem_filter.1 hpe with ⟨hpe', hcond⟩
  rw [decide_eq_true_iff] at hcond
  cases hsc : pe.2.scan? with
  | none => rfl
  | some m =>
    exfalso
    apply hcond
    apply mem_preserved_iff.2
    constructor
    · exact Map.mem_keys_of_mem hpe'
    · apply prevPaths_build_iff.2
      exact mem_keys_scanned_of_entry
        (show ((pe.1, pe.2) : CanonicalPathBuf × DirEntry) ∈ discover_paths root_path
          from hpe') hsc

theorem build_candidate_nil (root_path : Option FSNode) (hcoh : Coherent root_path) :
    candidateList (buildIdx root_path) = [] := by
  rw [candidateList, build_updated_nil root_path hcoh]
  rw [show scan_metadata [] = ([] : Map CanonicalPathBuf ResourceMeta) from rfl]
  rw [List.nil_append, scan_metadata]
  rw [List.filterMap_eq_nil_iff.2 (fun pe hpe => by
    rw [build_created_scan_none hpe]
    rfl)]
  rfl

theorem build_no_op (root_path : Option FSNode) (hcoh : Coherent root_path) :
    updateCore (buildIdx root_path) = (⟨[], []⟩, buildIdx root_path) := by
  apply updateCore_of_synced
  · rw [retractionList, build_vanished_nil, build_updated_nil root_path hcoh]
    rfl
  · rw [addedList, build_candidate_nil root_path hcoh]
    rfl

/-! ### after one update the index is synchronized -/

theorem added_sub_prev1 {idx : ResourceIndex} {x : CanonicalPathBuf}
    (hx : x ∈ Map.keys (addedMap idx)) : x ∈ prevPaths (updateCore idx).2 :=
  Map.find?_isSome.1 (by rw [find?_update_added hx]; exact Map.find?_isSome.2 hx)

theorem mem_keys_added_mem_curr {idx : ResourceIndex} {k : CanonicalPathBuf}
    (h : k ∈ Map.keys (addedMap idx)) : k ∈ currPaths idx := by
  rcases mem_keys_added_cases h with h | h
  · exact mem_keys_filter_sub h
  · exact mem_keys_filter_sub h

theorem prev_update_sub_curr {idx : ResourceIndex} {x : CanonicalPathBuf}
    (h : x ∈ prevPaths (updateCore idx).2) : x ∈ currPaths idx := by
  have hs : (Map.find? (updateCore idx).2.path2meta x).isSome := Map.find?_isSome.2 h
  by_cases hx : x ∈ Map.keys (addedMap idx)
  · exact mem_keys_added_mem_curr hx
  · rw [find?_update_old hx] at hs
    by_cases hr : x ∈ retractionList idx
    · rw [if_pos hr] at hs
      exact Bool.noConfusion hs
    · rw [if_neg hr] at hs
      have hprev : x ∈ prevPaths idx := Map.find?_isSome.1 hs
      by_cases hpres : x ∈ preservedPaths idx
      · exact (mem_preserved_iff.1 hpres).1
      · exact absurd (List.mem_append_left _
          (List.mem_filter.2 ⟨hprev, by simpa using hpres⟩)) hr

theorem update_vanished_nil {idx : ResourceIndex} :
    vanishedPaths (updateCore idx).2 = [] := by
  apply List.filter_eq_nil_iff.2
  intro p hp
  simp only [decide_eq_true_eq, not_not]
  have hc0 := prev_update_sub_curr hp
  have hc : p ∈ currPaths (updateCore idx).2 := hc0
  exact mem_preserved_iff.2 ⟨hc, hp⟩

theorem update_updated_nil {idx : ResourceIndex} (hcoh : Coherent idx.root) :
    updatedPaths (updateCore idx).2 = [] := by
  apply List.filter_eq_nil_iff.2
  intro pe hpe
  simp only [Bool.not_eq_true]
  by_cases hpres1 : pe.1 ∈ preservedPaths (updateCore idx).2
  · rw [updatedCheck, if_pos hpres1]
    cases hfr : pe.2.fresh? with
    | none => rfl
    | some tf =>
      have hprev1 : pe.1 ∈ prevPaths (updateCore idx).2 := (mem_preserved_iff.1 hpres1).2
      rcases Option.isSome_iff_exists.1 (Map.find?_isSome.2 hprev1) with ⟨m1, hm1⟩
      have hget : indexGet (updateCore idx).2.path2meta pe.1 = m1 := by
        rw [indexGet, hm1]
        rfl
      rw [hget]
      apply decide_eq_false
      apply Nat.not_lt.2
      by_cases hadd : pe.1 ∈ Map.keys (addedMap idx)
      · have hfa := find?_update_added hadd
        rw [hfa] at hm1
        have hmem1 : (pe.1, m1) ∈ addedList idx :=
          Map.mem_collectKV (Map.find?_some_mem hm1)
        have hcand : (pe.1, m1) ∈ candidateList idx :=
          (List.filter_sublist _).subset hmem1
        rcases candidate_entry_char hcand with ⟨e', he', hsc'⟩
        have hde : e' = pe.2 :=
          Map.value_unique_of_nodup (Map.nodup_keys_collectKV _) he'
            (show (pe.1, pe.2) ∈ currEntries idx from hpe)
        rw [hde] at hsc'
        exact entryCoherent_le (hcoh pe hpe) hsc' hfr
      · have hfo := find?_update_old hadd
        rw [hm1] at hfo
        by_cases hr : pe.1 ∈ retractionList idx
        · rw [if_pos hr] at hfo
          exact Option.noConfusion hfo
        · rw [if_neg hr] at hfo
          have hm0 : Map.find? idx.path2meta pe.1 = some m1 := hfo.symm
          have hpres0 : pe.1 ∈ preservedPaths idx :=
            mem_preserved_iff.2
              ⟨Map.mem_keys_of_mem (show (pe.1, pe.2) ∈ currEntries idx from hpe),
                Map.find?_isSome.1 (by rw [hm0]; rfl)⟩
          have hchk : updatedCheck idx pe = false := by
            cases hx : updatedCheck idx pe with
            | false => rfl
            | true =>
              exfalso
              apply hr
              apply List.mem_append_right
              apply Map.mem_keys_of_mem (p := pe)
              exact List.mem_filter.2 ⟨(show pe ∈ currEntries idx from hpe), hx⟩
          rw [updatedCheck, if_pos hpres0, hfr] at hchk
          have hget0 : indexGet idx.path2meta pe.1 = m1 := by
            rw [indexGet, hm0]
            rfl
          rw [hget0] at hchk
          exact Nat.not_lt.1 (of_decide_eq_false hchk)
  · rw [updatedCheck, if_neg hpres1]

theorem update_retraction_nil {idx : ResourceIndex} (hcoh : Coherent idx.root) :
    retractionList (updateCore idx).2 = [] := by
  rw [retractionList, update_vanished_nil, update_updated_nil hcoh]
  rfl

theorem update_addedList_nil {idx : ResourceIndex} (hcoh : Coherent idx.root) :
    addedList (updateCore idx).2 = [] := by
  have hids1 : (retractSt (updateCore idx).2).ids = (updateCore idx).2.ids := by
    rw [retractSt, update_retraction_nil hcoh]
    rfl
  apply List.filter_eq_nil_iff.2
  intro pm hpm
  simp only [decide_eq_true_eq, not_not]
  rw [hids1]
  rw [candidateList, update_updated_nil hcoh] at hpm
  rw [show scan_metadata [] = ([] : Map CanonicalPathBuf ResourceMeta) from rfl,
    List.nil_append] at hpm
  obtain ⟨p, msc⟩ := pm
  rcases scan_entry_char hpm with ⟨e', he', hsc'⟩
  rcases List.mem_filter.1 he' with ⟨hcurr', hpred⟩
  rw [decide_eq_true_iff] at hpred
  have hprev1 : p ∉ prevPaths (updateCore idx).2 := fun hp =>
    hpred (mem_preserved_iff.2 ⟨Map.mem_keys_of_mem hcurr', hp⟩)
  have hnotadd : p ∉ Map.keys (addedMap idx) := fun hk => hprev1 (added_sub_prev1 hk)
  show msc.id ∈ (updateCore idx).2.ids
  by_cases hprev0 : p ∈ prevPaths idx
  · have hfo := find?_update_old hnotadd
    have hnone1 : Map.find? (updateCore idx).2.path2meta p = none :=
      Map.find?_eq_none.2 hprev1
    rw [hnone1] at hfo
    by_cases hr : p ∈ retractionList idx
    · rcases List.mem_append.1 hr with hv | hu
      · exfalso
        have hnp : p ∉ preservedPaths idx := vanished_not_preserved hv
        apply hnp
        have hcp : p ∈ currPaths idx := Map.mem_keys_of_mem hcurr'
        exact mem_preserved_iff.2 ⟨hcp, hprev0⟩
      · rcases List.mem_map.1 hu with ⟨pe', hpe', hkey⟩
        have hpe'' : pe' ∈ currEntries idx := (List.filter_sublist _).subset hpe'
        have hv' : pe'.2 = e' := by
          apply Map.value_unique_of_nodup (Map.nodup_keys_collectKV _) (k := p)
          · show (p, pe'.2) ∈ currEntries idx
            rw [← hkey]
            exact hpe''
          · exact hcurr'
        have hsc'' : pe'.2.scan? = some msc := by
          rw [hv']
          exact hsc'
        have hmemU : (p, msc) ∈ scan_metadata (updatedPaths idx) := by
          apply scan_mem_intro
            (((List.filter_sublist _).map Prod.fst).nodup (Map.nodup_keys_collectKV _))
            (e := pe'.2) ?_ hsc''
          show (p, pe'.2) ∈ updatedPaths idx
          rw [← hkey]
          exact hpe'
        exact update_ids_mono
          (candidate_filtered hnotadd (List.mem_append_left _ hmemU))
    · rw [if_neg hr] at hfo
      have hn0 : Map.find? idx.path2meta p = none := hfo.symm
      have hcontr := Map.find?_isSome.2 hprev0
      rw [hn0] at hcontr
      exact Bool.noConfusion hcontr
  · have hpres0 : p ∉ preservedPaths idx := fun hp => hprev0 (mem_preserved_iff.1 hp).2
    have hcre : (p, e') ∈ createdPaths idx :=
      List.mem_filter.2 ⟨hcurr', by simpa using hpres0⟩
    have hmemC : (p, msc) ∈ scan_metadata (createdPaths idx) :=
      scan_mem_intro
        (((List.filter_sublist _).map Prod.fst).nodup (Map.nodup_keys_collectKV _))
        hcre hsc'
    exact update_ids_mono
      (candidate_filtered hnotadd (List.mem_append_right _ hmemC))

/-- After one update of any index, a second update with no filesystem
change is a complete no-op: empty diff, structures unchanged. -/
theorem update_no_op {idx : ResourceIndex} (hcoh : Coherent idx.root) :
    updateCore (updateCore idx).2 = (⟨[], []⟩, (updateCore idx).2) :=
  updateCore_of_synced (update_retraction_nil hcoh) (update_addedList_nil hcoh)

/-! ## Claim theorems -/

/-- C1: after every build and after every update of a well-formed index, for
every content identity i in the known-ids set, the number of tracked paths
whose metadata identity equals i is exactly collisions.get(i).unwrap_or(1);
moreover build establishes and update preserves the well-formedness under
which this holds, so it holds after every build/update chain. -/
theorem claim_C1_collision_multiset :
    (∀ root_path : Option FSNode, ∀ i ∈ (buildIdx root_path).ids,
      countId (buildIdx root_path).path2meta i
        = (Map.find? (buildIdx root_path).collisions i).getD 1) ∧
    (∀ idx : ResourceIndex, WfT idx.toTables → ∀ i ∈ (updateCore idx).2.ids,
      countId (updateCore idx).2.path2meta i
        = (Map.find? (updateCore idx).2.collisions i).getD 1) ∧
    (∀ root_path : Option FSNode, WfT (buildIdx root_path).toTables) ∧
    (∀ idx : ResourceIndex, WfT idx.toTables → WfT (updateCore idx).2.toTables) :=
  ⟨fun root_path => wf_collision_multiset (buildIdx_wf root_path),
   fun idx h => wf_collision_multiset (updateCore_wf h),
   buildIdx_wf,
   fun _ h => updateCore_wf h⟩

theorem claim_C1_collision_multiset_witness :
    WfT dupIndex.toTables ∧
    (∀ i ∈ (updateCore dupIndex).2.ids,
      countId (updateCore dupIndex).2.path2meta i
        = (Map.find? (updateCore dupIndex).2.collisions i).getD 1) :=
  ⟨by decide, claim_C1_collision_multiset.2.1 dupIndex (by decide)⟩

/-- Directory "d" with two files "a" (canonical path 0) and "b" (canonical
path 1) holding identical content of identity 5. -/
def twoDupTree : FSNode :=
  FSNode.dir ⟨[100], some ['d']⟩ false
    [ FSNode.file ⟨[97], some ['a']⟩ ⟨some 0, some ⟨5, 1⟩, some 1⟩,
      FSNode.file ⟨[98], some ['b']⟩ ⟨some 1, some ⟨5, 1⟩, some 1⟩ ]

/-- The same directory after file "a" was deleted from disk. -/
def twoDupTreeAfterDelete : FSNode :=
  FSNode.dir ⟨[100], some ['d']⟩ false
    [ FSNode.file ⟨[98], some ['b']⟩ ⟨some 1, some ⟨5, 1⟩, some 1⟩ ]

/-- The index built from twoDupTree, observed after "a" vanished from the
disk (the stored root now discovers only "b"). -/
def twoDupBuiltThenDeleted : ResourceIndex :=
  { buildIdx (some twoDupTree) with root := some twoDupTreeAfterDelete }

/-- C2 counterexample, along an actual build/update trace: building over
two duplicate holders of identity 5 yields the collision entry (5, 2);
after one of them is deleted from disk, the next update retracts it,
reports no deletion (the other path still holds the identity), but stores
the decremented count 1 in the collisions map instead of removing the
entry — so after an update the map does contain an identity mapped to 1. -/
theorem claim_C2_counterexample :
    (buildIdx (some twoDupTree)).collisions = [(5, 2)] ∧
    (updateCore twoDupBuiltThenDeleted).1.deleted = [] ∧
    Map.find? (updateCore twoDupBuiltThenDeleted).2.collisions 5 = some 1 := by
  decide

/-- C2 amended: after every build the collisions map never contains an
identity mapped to 1 (every stored count is at least 2), but update only
guarantees stored counts of at least 1: when a retraction decrements a
shared identity's path count from 2 to 1, the entry is kept with value 1
rather than removed. -/
theorem claim_C2_collision_bounds :
    (∀ root_path : Option FSNode, ∀ pr ∈ (buildIdx root_path).collisions, 2 ≤ pr.2) ∧
    (∀ idx : ResourceIndex, WfT idx.toTables →
      ∀ pr ∈ (updateCore idx).2.collisions, 1 ≤ pr.2) :=
  ⟨build_coll_ge_two,
   fun idx h => wf_coll_pos (updateCore_wf h)⟩

theorem claim_C2_collision_bounds_witness :
    WfT dupIndex.toTables ∧
    (∀ pr ∈ (updateCore dupIndex).2.collisions, 1 ≤ pr.2) :=
  ⟨by decide, claim_C2_collision_bounds.2 dupIndex (by decide)⟩

/-- C3 counterexample: build on a root path that does not exist (the walk
yields only an error entry) returns Ok with an empty index, not Err. -/
theorem claim_C3_counterexample :
    build none
      = Except.ok { path2meta := [], collisions := [], ids := [], root := none } := rfl

/-- C3 amended: build and update never return Err at all — a nonexistent or
unreadable root is absorbed by the walk's error branch like every per-entry
failure (traversal, canonicalization, scan), yielding Ok with an index over
the entries that survived; for a missing root, the empty index. -/
theorem claim_C3_never_errs :
    (∀ root_path : Option FSNode, build root_path = Except.ok (buildIdx root_path)) ∧
    (∀ idx : ResourceIndex, update idx = Except.ok (updateCore idx)) ∧
    build none
      = Except.ok { path2meta := [], collisions := [], ids := [], root := none } :=
  ⟨fun _ => rfl, fun _ => rfl, rfl⟩

/-- C9: in update of a well-formed index, the direct path2meta indexing
performed for every preserved path finds its key, and the retraction loop
never reaches the "Path was not known" branch (the warned flag stays
false): every retracted path is present in path2meta at retraction time. -/
theorem claim_C9_no_panic_no_warn :
    ∀ idx : ResourceIndex, WfT idx.toTables →
      (∀ p ∈ preservedPaths idx, (Map.find? idx.path2meta p).isSome) ∧
      (retractSt idx).warned = false := by
  intro idx h
  constructor
  · intro p hp
    exact Map.find?_isSome.2 (mem_preserved_iff.1 hp).2
  · exact retractSt_warned_false h

theorem claim_C9_no_panic_no_warn_witness :
    WfT dupIndex.toTables ∧
    ((∀ p ∈ preservedPaths dupIndex, (Map.find? dupIndex.path2meta p).isSome) ∧
      (retractSt dupIndex).warned = false) :=
  ⟨by decide, claim_C9_no_panic_no_warn dupIndex (by decide)⟩

/-- The attrs of the demonstration file "a" under demoTree. -/
def demoAttrs : FileAttrs := ⟨some 10, some ⟨5, 3⟩, some 3⟩

/-- A directory "d" with a visible file "a" and a hidden file ".b". -/
def demoTree : FSNode :=
  FSNode.dir ⟨[100], some ['d']⟩ false
    [ FSNode.file ⟨[97], some ['a']⟩ demoAttrs,
      FSNode.file ⟨[46, 98], some ['.', 'b']⟩ ⟨some 11, some ⟨6, 3⟩, some 3⟩ ]

/-- C8: after build, path_to_meta contains the canonical path of every
regular file reachable along a chain of non-hidden names whose
canonicalization and scan succeed (given that discovery produces no
duplicate canonical paths), and it contains no path whose discovery would
have to pass through an entry whose name starts with a dot — every key of
path_to_meta comes from a file reachable through non-hidden entries only,
so hidden files and entire hidden subtrees never appear. -/
theorem claim_C8_hidden_pruning :
    (∀ (t : FSNode) (names : List EntryName) (attrs : FileAttrs)
        (p : CanonicalPathBuf) (m : ResourceMeta),
      fileAtB t names attrs = true →
      names.all (fun n => !is_hidden n) = true →
      attrs.canon? = some p →
      attrs.scan? = some m →
      ((discoverNode t).map Prod.fst).Nodup →
      p ∈ Map.keys (buildIdx (some t)).path2meta) ∧
    (∀ (root_path : Option FSNode) (p : CanonicalPathBuf),
      p ∈ Map.keys (buildIdx root_path).path2meta →
      ∃ t names attrs, root_path = some t ∧ fileAtB t names attrs = true
        ∧ names.all (fun n => !is_hidden n) = true
        ∧ attrs.canon? = some p) := by
  constructor
  · intro t names attrs p m hf hh hc hs hnd
    have hdisc : (p, ⟨attrs.scan?, attrs.fresh?⟩) ∈ discoverNode t :=
      discover_of_fileAt hf hh hc
    have hdisc' : (p, (⟨attrs.scan?, attrs.fresh?⟩ : DirEntry)) ∈ discover_paths (some t) :=
      Map.mem_collectKV_of_nodup hnd hdisc
    have hscan : p ∈ Map.keys (scan_metadata (discover_paths (some t))) :=
      mem_keys_scanned_of_entry hdisc' hs
    exact mem_keys_insertAll.2 (Or.inl hscan)
  · intro root_path p hp
    rcases mem_keys_insertAll.1 hp with hp | hp
    · have hpd := mem_keys_scan_sub hp
      have hpd' := Map.mem_keys_collectKV.1 hpd
      cases root_path with
      | none => simp [Map.keys] at hpd'
      | some t =>
        rcases List.mem_map.1 hpd' with ⟨pe, hpe, hk⟩
        rcases fileAt_of_discover t pe.1 pe.2 hpe with ⟨names, attrs, h1, h2, h3, _⟩
        exact ⟨t, names, attrs, rfl, h1, h2, hk ▸ h3⟩
    · simp [Map.keys] at hp

theorem claim_C8_hidden_pruning_witness :
    fileAtB demoTree [⟨[100], some ['d']⟩, ⟨[97], some ['a']⟩] demoAttrs = true ∧
    10 ∈ Map.keys (buildIdx (some demoTree)).path2meta :=
  ⟨by decide,
   claim_C8_hidden_pruning.1 demoTree [⟨[100], some ['d']⟩, ⟨[97], some ['a']⟩]
     demoAttrs 10 ⟨5, 3⟩ (by decide) (by decide) (by decide) (by decide) (by decide)⟩

/-- C10: an entry whose file name is not valid UTF-8 (to_str returns none)
is never classified as hidden, even when its raw name bytes begin with a
dot (byte 46): such a directory is still traversed (its children's
discoveries surface) and such a file is still discovered and indexed. -/
theorem claim_C10_invalid_utf8_not_hidden :
    (∀ raw : List Nat, is_hidden ⟨raw, none⟩ = false) ∧
    (∀ (rest : List Nat) (children : List FSNode) (x : CanonicalPathBuf × DirEntry),
      (∃ c ∈ children, x ∈ discoverNode c) →
      x ∈ discoverNode (FSNode.dir ⟨46 :: rest, none⟩ false children)) ∧
    (∀ (rest : List Nat) (attrs : FileAttrs) (p : CanonicalPathBuf),
      attrs.canon? = some p →
      discoverNode (FSNode.file ⟨46 :: rest, none⟩ attrs)
        = [(p, ⟨attrs.scan?, attrs.fresh?⟩)]) := by
  refine ⟨fun raw => rfl, ?_, ?_⟩
  · intro rest children x hx
    show x ∈ discoverList children
    exact mem_discoverList.2 hx
  · intro rest attrs p hc
    rw [show discoverNode (FSNode.file ⟨46 :: rest, none⟩ attrs)
        = if is_hidden ⟨46 :: rest, none⟩ then []
          else match attrs.canon? with
            | some q => [(q, ⟨attrs.scan?, attrs.fresh?⟩)]
            | none => [] from rfl]
    rw [hc]
    rfl

theorem created_not_preserved {idx : ResourceIndex} {k : CanonicalPathBuf}
    (h : k ∈ Map.keys (createdPaths idx)) : k ∉ preservedPaths idx := by
  rcases mem_keys_filter_entry (Map.nodup_keys_collectKV _) h with ⟨v, _, hcond⟩
  simpa using hcond

theorem candidate_keys_nodup (idx : ResourceIndex) :
    (Map.keys (candidateList idx)).Nodup := by
  rw [candidateList]
  rw [show Map.keys (scan_metadata (updatedPaths idx) ++ scan_metadata (createdPaths idx))
      = Map.keys (scan_metadata (updatedPaths idx))
        ++ Map.keys (scan_metadata (createdPaths idx)) from List.map_append _ _ _]
  apply List.Nodup.append
  · exact Map.nodup_keys_collectKV _
  · exact Map.nodup_keys_collectKV _
  · intro x hx hx'
    exact created_not_preserved (mem_keys_scan_sub hx')
      (mem_keys_updated (mem_keys_scan_sub hx))

/-- A filesystem with two new files "a" (canonical path 1) and "b"
(canonical path 2) holding identical fresh content of identity 7. -/
def twinTree : FSNode :=
  FSNode.dir ⟨[100], some ['d']⟩ false
    [ FSNode.file ⟨[97], some ['a']⟩ ⟨some 1, some ⟨7, 1⟩, some 1⟩,
      FSNode.file ⟨[98], some ['b']⟩ ⟨some 2, some ⟨7, 1⟩, some 1⟩ ]

/-- The empty index over twinTree: both files are created in one pass. -/
def emptyTwinIdx : ResourceIndex :=
  { path2meta := [], collisions := [], ids := [], root := some twinTree }

/-- An index tracking path 1 (identity 5, modified 1), whose file is still
on disk but whose fresh timestamp read fails. -/
def freshFailIdx : ResourceIndex :=
  { path2meta := [(1, ⟨5, 1⟩)], collisions := [], ids := [5],
    root := some (FSNode.file ⟨[97], some ['a']⟩ ⟨some 1, some ⟨5, 1⟩, none⟩) }

/-- C7: a preserved path whose fresh timestamp cannot be retrieved is
excluded from the updated set, never retracted, kept in the index with its
stored metadata, and its identity is never reported as deleted. -/
theorem claim_C7_fresh_failure_conservative :
    ∀ (idx : ResourceIndex) (p : CanonicalPathBuf) (e : DirEntry) (m : ResourceMeta),
      WfT idx.toTables →
      (p, e) ∈ currEntries idx →
      e.fresh? = none →
      Map.find? idx.path2meta p = some m →
      p ∉ Map.keys (updatedPaths idx) ∧
      p ∉ retractionList idx ∧
      Map.find? (updateCore idx).2.path2meta p = some m ∧
      m.id ∉ (updateCore idx).1.deleted := by
  intro idx p e m hwf hcurr hfr hprev
  have h1 := not_mem_keys_updated_of_fresh_none hcurr hfr
  have h2 := not_mem_retraction_of_fresh_none hcurr hfr hprev
  have h3 : p ∉ Map.keys (addedMap idx) := by
    intro hk
    rcases mem_keys_added_cases hk with hk | hk
    · exact h1 hk
    · rw [created_not_prev hk] at hprev
      exact Option.noConfusion hprev
  refine ⟨h1, h2, ?_, ?_⟩
  · show Map.find?
      (insertAll
        ⟨(retractSt idx).path2meta, (retractSt idx).collisions, (retractSt idx).ids⟩
        (addedMap idx)).path2meta p = some m
    rw [find?_insertAll_of_not_mem h3]
    show Map.find? (retractSt idx).path2meta p = some m
    rw [retractSt, foldl_retract_find?_not_mem h2]
    exact hprev
  · show m.id ∉ (retractSt idx).deleted
    rw [retractSt]
    exact foldl_retract_deleted_safe h2 hprev hwf (by simp)

theorem claim_C7_fresh_failure_conservative_witness :
    (WfT freshFailIdx.toTables ∧
      ((1 : CanonicalPathBuf), (⟨some ⟨5, 1⟩, none⟩ : DirEntry)) ∈ currEntries freshFailIdx ∧
      Map.find? freshFailIdx.path2meta 1 = some ⟨5, 1⟩) ∧
    (1 ∉ Map.keys (updatedPaths freshFailIdx) ∧
      1 ∉ retractionList freshFailIdx ∧
      Map.find? (updateCore freshFailIdx).2.path2meta 1 = some ⟨5, 1⟩ ∧
      (5 : ResourceId) ∉ (updateCore freshFailIdx).1.deleted) :=
  ⟨⟨by decide, by decide, by decide⟩,
    claim_C7_fresh_failure_conservative freshFailIdx 1 ⟨some ⟨5, 1⟩, none⟩ ⟨5, 1⟩
      (by decide) (by decide) rfl (by decide)⟩

/-- C4 counterexample: two created files with identical fresh content both
pass the added filter; the insertion loop inserts path 2 first, so when
path 1's pair is inserted its identity 7 is already present in known_ids —
yet path 1 is in the returned added mapping and ends up in path_to_meta.
So "present in known_ids at insertion time" does not imply exclusion. -/
theorem claim_C4_counterexample :
    addedMap emptyTwinIdx = [(2, ⟨7, 1⟩), (1, ⟨7, 1⟩)] ∧
    (7 : ResourceId) ∈ (add_meta 2 ⟨7, 1⟩
      ⟨(retractSt emptyTwinIdx).path2meta, (retractSt emptyTwinIdx).collisions,
        (retractSt emptyTwinIdx).ids⟩).ids ∧
    Map.find? (updateCore emptyTwinIdx).1.added 1 = some ⟨7, 1⟩ ∧
    Map.find? (updateCore emptyTwinIdx).2.path2meta 1 = some ⟨7, 1⟩ := by
  decide

/-- C4 amended: a candidate addition whose identity is present in known_ids
at filter time — after retraction, before any insertion of this pass — is
excluded from added and is absent from path_to_meta after the call (an
updated path so filtered leaves the index entirely); candidates admitted
together may share an identity and are all inserted, later ones even though
their identity became known during the insertion phase. Build, in contrast,
tracks every scanned path unconditionally. -/
theorem claim_C4_duplicate_filter :
    (∀ (idx : ResourceIndex) (p : CanonicalPathBuf) (m : ResourceMeta),
      (p, m) ∈ candidateList idx →
      m.id ∈ (retractSt idx).ids →
      p ∉ Map.keys (addedMap idx) ∧
      Map.find? (updateCore idx).2.path2meta p = none) ∧
    (∀ (root_path : Option FSNode) (p : CanonicalPathBuf) (m : ResourceMeta),
      (p, m) ∈ scan_metadata (discover_paths root_path) →
      Map.find? (buildIdx root_path).path2meta p = some m) := by
  constructor
  · intro idx p m hcand hid
    have hnotadded : p ∉ Map.keys (addedMap idx) := by
      intro hk
      have h1 := Map.mem_keys_collectKV.1 hk
      rcases List.mem_map.1 h1 with ⟨pm, hpm, hkey⟩
      rcases List.mem_filter.1 hpm with ⟨hpm', hpred⟩
      have hval : pm.2 = m := by
        have : (p, pm.2) ∈ candidateList idx := by
          rw [← hkey]
          exact hpm'
        exact Map.value_unique_of_nodup (candidate_keys_nodup idx) this hcand
      rw [decide_eq_true_iff] at hpred
      rw [hval] at hpred
      exact hpred hid
    refine ⟨hnotadded, ?_⟩
    show Map.find?
      (insertAll
        ⟨(retractSt idx).path2meta, (retractSt idx).collisions, (retractSt idx).ids⟩
        (addedMap idx)).path2meta p = none
    rw [find?_insertAll_of_not_mem hnotadded]
    show Map.find? (retractSt idx).path2meta p = none
    have hpk : p ∈ Map.keys (candidateList idx) := Map.mem_keys_of_mem hcand
    rw [candidateList] at hpk
    rw [show Map.keys (scan_metadata (updatedPaths idx) ++ scan_metadata (createdPaths idx))
        = Map.keys (scan_metadata (updatedPaths idx))
          ++ Map.keys (scan_metadata (createdPaths idx)) from List.map_append _ _ _] at hpk
    rcases List.mem_append.1 hpk with hpk | hpk
    · have h4 : p ∈ retractionList idx :=
        List.mem_append_right _ (mem_keys_scan_sub hpk)
      rw [retractSt]
      exact foldl_retract_find?_mem h4
    · have h4 := created_not_prev (mem_keys_scan_sub hpk)
      rw [retractSt]
      exact foldl_retract_find?_none h4
  · intro root_path p m hmem
    exact find?_insertAll_of_mem (Map.nodup_keys_collectKV _)
      (Map.find?_eq_some_of_nodup (Map.nodup_keys_collectKV _) hmem)

/-- A filesystem with the already-tracked file "a" (path 1, identity 5)
unchanged, and a new file "b" (path 2) whose content also has identity 5. -/
def dupCreateTree : FSNode :=
  FSNode.dir ⟨[100], some ['d']⟩ false
    [ FSNode.file ⟨[97], some ['a']⟩ ⟨some 1, some ⟨5, 1⟩, some 1⟩,
      FSNode.file ⟨[98], some ['b']⟩ ⟨some 2, some ⟨5, 2⟩, some 2⟩ ]

def dupCreateIdx : ResourceIndex :=
  { path2meta := [(1, ⟨5, 1⟩)], collisions := [], ids := [5],
    root := some dupCreateTree }

theorem claim_C4_duplicate_filter_witness :
    (((2 : CanonicalPathBuf), (⟨5, 2⟩ : ResourceMeta)) ∈ candidateList dupCreateIdx ∧
      (5 : ResourceId) ∈ (retractSt dupCreateIdx).ids) ∧
    (2 ∉ Map.keys (addedMap dupCreateIdx) ∧
      Map.find? (updateCore dupCreateIdx).2.path2meta 2 = none) :=
  ⟨⟨by decide, by decide⟩,
    claim_C4_duplicate_filter.1 dupCreateIdx 2 ⟨5, 2⟩ (by decide) (by decide)⟩

/-- C6: if the sole tracked path holding an identity vanishes from disk
while a single new path appears whose scan yields that same identity —
all other paths preserved and unchanged, the scenario stated through the
per-pass classification: vanished = [a], updated = [], created = [(a2,e2)]
— then update returns deleted = [H(a)] and added = [(a2, metadata)] in the
same pass, and afterwards a2 is tracked with that identity while a is not. -/
theorem claim_C6_rename_detected :
    ∀ (idx : ResourceIndex) (a a2 : CanonicalPathBuf) (m : ResourceMeta)
      (e2 : DirEntry) (m2 : ResourceMeta),
      WfT idx.toTables →
      Map.find? idx.path2meta a = some m →
      countId idx.path2meta m.id = 1 →
      vanishedPaths idx = [a] →
      updatedPaths idx = [] →
      createdPaths idx = [(a2, e2)] →
      e2.scan? = some m2 →
      m2.id = m.id →
      (updateCore idx).1.deleted = [m.id] ∧
      (updateCore idx).1.added = [(a2, m2)] ∧
      Map.find? (updateCore idx).2.path2meta a2 = some m2 ∧
      Map.find? (updateCore idx).2.path2meta a = none := by
  intro idx a a2 m e2 m2 hwf hma hsole hvan hupd hcre hsc hid2
  have hne : a ≠ a2 := by
    intro hh
    have h0 : a2 ∈ Map.keys (createdPaths idx) := by
      rw [hcre]
      simp [Map.keys]
    have h1 := created_not_prev h0
    rw [← hh, hma] at h1
    exact Option.noConfusion h1
  have hretr : retractionList idx = [a] := by
    rw [retractionList, hvan, hupd]
    rfl
  have hk : (Map.find? idx.collisions m.id).getD 1 = 1 := by
    cases hcf : Map.find? idx.collisions m.id with
    | none => rfl
    | some n =>
      have hn : countId idx.path2meta m.id = n := wf_find?_coll_count hwf hcf
      show n = 1
      omega
  have hst : retractSt idx
      = ⟨Map.erase idx.path2meta a, Map.erase idx.collisions m.id,
          idx.ids.erase m.id, [m.id], false⟩ := by
    rw [retractSt, hretr]
    show retractStep ⟨idx.path2meta, idx.collisions, idx.ids, [], false⟩ a = _
    simp [retractStep, hma, hk, insertSet]
  have hcand : candidateList idx = [(a2, m2)] := by
    rw [candidateList, hupd, hcre]
    show scan_metadata [] ++ scan_metadata [(a2, e2)] = [(a2, m2)]
    rw [show scan_metadata [] = ([] : Map CanonicalPathBuf ResourceMeta) from rfl]
    rw [scan_metadata]
    rw [show ([(a2, e2)] : Map CanonicalPathBuf DirEntry).filterMap
        (fun pe => pe.2.scan?.map (fun m => (pe.1, m))) = [(a2, m2)] by
      simp [List.filterMap, hsc]]
    rfl
  have hids2 : m2.id ∉ (retractSt idx).ids := by
    rw [hst]
    show m2.id ∉ idx.ids.erase m.id
    rw [hid2]
    intro hmem
    exact ((wf_nodup_ids hwf).mem_erase_iff.1 hmem).1 rfl
  have haddedl : addedList idx = [(a2, m2)] := by
    rw [addedList, hcand]
    simp [hids2]
  have haddedm : addedMap idx = [(a2, m2)] := by
    rw [addedMap, haddedl]
    rfl
  refine ⟨?_, ?_, ?_, ?_⟩
  · show (retractSt idx).deleted = [m.id]
    rw [hst]
  · show addedMap idx = [(a2, m2)]
    exact haddedm
  · show Map.find?
      (insertAll
        ⟨(retractSt idx).path2meta, (retractSt idx).collisions, (retractSt idx).ids⟩
        (addedMap idx)).path2meta a2 = some m2
    rw [haddedm, hst]
    exact find?_add_meta_self
  · show Map.find?
      (insertAll
        ⟨(retractSt idx).path2meta, (retractSt idx).collisions, (retractSt idx).ids⟩
        (addedMap idx)).path2meta a = none
    rw [haddedm, hst]
    show Map.find? (add_meta a2 m2
      ⟨Map.erase idx.path2meta a, Map.erase idx.collisions m.id,
        idx.ids.erase m.id⟩).path2meta a = none
    rw [find?_add_meta_ne hne]
    exact Map.find?_erase_self

/-- An index tracking only path 1 (identity 5); on disk that file is gone
and a new file "b" with canonical path 2 and the same content appeared. -/
def renameIdx : ResourceIndex :=
  { path2meta := [(1, ⟨5, 1⟩)], collisions := [], ids := [5],
    root := some (FSNode.file ⟨[98], some ['b']⟩ ⟨some 2, some ⟨5, 1⟩, some 1⟩) }

theorem claim_C6_rename_detected_witness :
    (WfT renameIdx.toTables ∧
      Map.find? renameIdx.path2meta 1 = some ⟨5, 1⟩ ∧
      countId renameIdx.path2meta 5 = 1 ∧
      vanishedPaths renameIdx = [1] ∧
      updatedPaths renameIdx = [] ∧
      createdPaths renameIdx = [(2, ⟨some ⟨5, 1⟩, some 1⟩)]) ∧
    ((updateCore renameIdx).1.deleted = [5] ∧
      (updateCore renameIdx).1.added = [(2, ⟨5, 1⟩)] ∧
      Map.find? (updateCore renameIdx).2.path2meta 2 = some ⟨5, 1⟩ ∧
      Map.find? (updateCore renameIdx).2.path2meta 1 = none) :=
  ⟨⟨by decide, by decide, by decide, by decide, by decide, by decide⟩,
    claim_C6_rename_detected renameIdx 1 2 ⟨5, 1⟩ ⟨some ⟨5, 1⟩, some 1⟩ ⟨5, 1⟩
      (by decide) (by decide) (by decide) (by decide) (by decide) (by decide)
      rfl rfl⟩

/-- An index that disagrees with its (fixed, empty) filesystem: it still
tracks path 0 while nothing is on disk. -/
def staleIdx : ResourceIndex :=
  { path2meta := [(0, ⟨5, 1⟩)], collisions := [], ids := [5], root := none }

/-- C5 counterexample: over a fixed filesystem (nothing changes between
calls), the first of two consecutive update calls on a stale index returns
a non-empty deleted set, so the two calls do not both return empty diffs
for every index. -/
theorem claim_C5_counterexample :
    Coherent staleIdx.root ∧ (updateCore staleIdx).1.deleted = [5] := by
  decide

/-- C5 amended: with the filesystem fixed, the second of two consecutive
update calls always returns the empty diff and leaves the three index
structures (and the whole index) unchanged; and when the index is already
synchronized — freshly built from the same filesystem — the first call is
already such a no-op, so both calls return empty diffs.  This needs the
scanned modification timestamps to be at least the freshly read ones
(Coherent), which holds on a real filesystem where both come from the same
mtime. -/
theorem claim_C5_second_update_noop :
    (∀ idx : ResourceIndex, Coherent idx.root →
      updateCore (updateCore idx).2 = (⟨[], []⟩, (updateCore idx).2)) ∧
    (∀ root_path : Option FSNode, Coherent root_path →
      updateCore (buildIdx root_path) = (⟨[], []⟩, buildIdx root_path)) :=
  ⟨fun _ hcoh => update_no_op hcoh, build_no_op⟩

theorem claim_C5_second_update_noop_witness :
    Coherent (some demoTree) ∧
    updateCore (buildIdx (some demoTree)) = (⟨[], []⟩, buildIdx (some demoTree)) :=
  ⟨by decide, claim_C5_second_update_noop.2 (some demoTree) (by decide)⟩

theorem claim_C10_invalid_utf8_not_hidden_witness :
    (⟨some 2, none, none⟩ : FileAttrs).canon? = some 2 ∧
    discoverNode (FSNode.file ⟨46 :: [98], none⟩ ⟨some 2, none, none⟩)
      = [(2, ⟨none, none⟩)] :=
  ⟨rfl, claim_C10_invalid_utf8_not_hidden.2.2 [98] ⟨some 2, none, none⟩ 2 rfl⟩

end Arklib
